import Mathlib

/-
Verification of the cmdr runtime configuration store (options.go).

The store keeps a flat map from dotted keys to dynamic values together with a
mirrored hierarchy tree.  Go's `interface{}` values are embedded as the
inductive family `Value`; Go's `map[string]interface{}` is embedded as the
association-list-like type `Smap` whose observable behaviour (lookup, update)
matches a Go map; iteration order of Go maps is unspecified, here it is the
list order.  Go byte-level string slicing coincides with char-level slicing
on the ASCII fragment exercised by the specification, and `strings.ToUpper` /
`strings.ToLower` are modelled on ASCII.  The process-wide configuration
globals `RxxtPrefix` and `EnvPrefix` are passed as explicit parameters, the
process environment as an association list, and the YAML codec used by
`GetSectionFrom` as abstract function parameters (the spec treats decoders as
black boxes).  The `sync.RWMutex` is elided: operations are modelled as pure
state transformers.
-/

mutual
/-- Embedding of the Go dynamic values (`interface{}`) that flow through the
store: nil, scalars, the slice shapes the accessors dispatch on, and the two
map shapes (string-keyed and arbitrarily-keyed) handled by ingestion. -/
inductive Value where
  | vnil
  | vbool (b : Bool)
  | vint (n : Int)
  | vstr (s : String)
  | vlistS (xs : List String)
  | vlistI (xs : List Int)
  | vbytes (bs : List Char)
  | vlistV (xs : VList)
  | vmap (m : Smap)
  | vmapIx (m : IxMap)

/-- Embedding of Go `[]interface{}`. -/
inductive VList where
  | nil
  | cons (v : Value) (rest : VList)

/-- Embedding of Go `map[string]interface{}` as an association list. -/
inductive Smap where
  | nil
  | cons (k : String) (v : Value) (rest : Smap)

/-- Embedding of Go `map[interface{}]interface{}` as an association list. -/
inductive IxMap where
  | nil
  | cons (k : Value) (v : Value) (rest : IxMap)
end

/-- Builds an `Smap` from a list literal, for readable concrete stores. -/
def Smap.ofList : List (String × Value) → Smap
  | [] => .nil
  | (k, v) :: r => .cons k v (Smap.ofList r)

/-- Builds a `VList` from a list literal. -/
def VList.ofList : List Value → VList
  | [] => .nil
  | v :: r => .cons v (VList.ofList r)

/-- Lookup in an `Smap`, mirroring a Go map read with `ok`. -/
def Smap.alookup : Smap → String → Option Value
  | .nil, _ => none
  | .cons k v rest, key => if key = k then some v else rest.alookup key

/-- Update-or-append on an `Smap`, mirroring a Go map write `m[key] = val`. -/
def Smap.insertKV : Smap → String → Value → Smap
  | .nil, key, val => .cons key val .nil
  | .cons k v rest, key, val =>
    if key = k then .cons k val rest else .cons k v (rest.insertKV key val)

/-- Key list of an `Smap`, mirroring `for key := range m` over a snapshot. -/
def Smap.keys : Smap → List String
  | .nil => []
  | .cons k _ rest => k :: rest.keys

/-- Lookup in a plain association list (used for the process environment). -/
def alookup {α : Type} : List (String × α) → String → Option α
  | [], _ => none
  | (k, v) :: rest, key => if key = k then some v else alookup rest key

/-- Tests whether a dynamic value is the nil interface (Go `val == nil`). -/
def Value.isNil : Value → Bool
  | .vnil => true
  | _ => false

/-- Tests whether a dynamic value is a `map[string]interface{}` (the only
shape the Go type assertions in `mergeMap` / `getMap` accept). -/
def Value.isMapV : Value → Bool
  | .vmap _ => true
  | _ => false

/-- Char-level split, embedding Go `strings.Split` for a one-char separator:
`splitChars sep cs` never returns `[]` and returns `[[]]` on `[]`. -/
def splitChars (sep : Char) : List Char → List (List Char)
  | [] => [[]]
  | c :: rest =>
    let r := splitChars sep rest
    if c = sep then [] :: r
    else (c :: r.headD []) :: r.tail

/-- Embedding of Go `strings.Split(s, sep)` for a single-character separator. -/
def splitOnChar (sep : Char) (s : String) : List String :=
  (splitChars sep s.data).map (fun cs => String.mk cs)

/-- Embedding of `strings.Split(key, ".")` as used for option keys. -/
def splitDots (s : String) : List String :=
  splitOnChar '.' s

/-- Embedding of Go `strings.Join(l, sep)`. -/
def joinWith (sep : String) : List String → String
  | [] => ""
  | [x] => x
  | x :: y :: xs => x ++ sep ++ joinWith sep (y :: xs)

/-- Embedding of `strings.ReplaceAll(s, c, r)` for one-char pattern and
replacement. -/
def replaceChar (c r : Char) (s : String) : String :=
  String.mk (s.data.map (fun x => if x = c then r else x))

/-- Embedding of `strings.ToUpper` on the ASCII fragment. -/
def upperAscii (s : String) : String :=
  String.mk (s.data.map Char.toUpper)

/-- Embedding of `strings.ToLower` on the ASCII fragment. -/
def lowerAscii (s : String) : String :=
  String.mk (s.data.map Char.toLower)

/-- Embedding of `strings.HasPrefix p s` (byte = char on ASCII). -/
def hasPfx (p s : String) : Bool :=
  p.data.isPrefixOf s.data

/-- Embedding of the Go slice expression `s[n:]`; `none` models the runtime
panic when `n` exceeds the length. -/
def goSliceFrom (s : String) (n : Nat) : Option String :=
  if n ≤ s.data.length then some (String.mk (s.data.drop n)) else none

/-- Lexicographic comparison on char lists, used to model `fmt`'s sorting of
map keys when printing a map. -/
def lexLeChars : List Char → List Char → Bool
  | [], _ => true
  | _ :: _, [] => false
  | a :: as, b :: bs => if a = b then lexLeChars as bs else decide (a < b)

/-- Insertion into a list of rendered key/value pairs sorted by key. -/
def insPairSorted (x : String × String) : List (String × String) → List (String × String)
  | [] => [x]
  | y :: ys =>
    if lexLeChars x.1.data y.1.data then x :: y :: ys else y :: insPairSorted x ys

/-- Insertion sort by key for rendered map entries (Go `fmt` prints map keys
in sorted order). -/
def sortPairs : List (String × String) → List (String × String)
  | [] => []
  | x :: xs => insPairSorted x (sortPairs xs)

mutual
/-- Embedding of `fmt.Sprintf("%v", v)` on the embedded value shapes.  Maps
are printed with keys sorted as Go `fmt` does; for the arbitrarily-keyed map
the keys are sorted by their own rendering (Go orders mixed-type keys
type-first, a corner no specification claim touches). -/
def goFmt : Value → String
  | .vnil => "<nil>"
  | .vbool b => if b then "true" else "false"
  | .vint n => toString n
  | .vstr s => s
  | .vlistS xs => "[" ++ joinWith " " xs ++ "]"
  | .vlistI xs => "[" ++ joinWith " " (xs.map (fun i => toString i)) ++ "]"
  | .vbytes bs => "[" ++ joinWith " " (bs.map (fun c => toString c.toNat)) ++ "]"
  | .vlistV xs => "[" ++ joinWith " " (goFmtList xs) ++ "]"
  | .vmap m =>
    "map[" ++ joinWith " " ((sortPairs (goFmtPairs m)).map (fun p => p.1 ++ ":" ++ p.2)) ++ "]"
  | .vmapIx m =>
    "map[" ++ joinWith " " ((sortPairs (goFmtPairsIx m)).map (fun p => p.1 ++ ":" ++ p.2)) ++ "]"

/-- Renders each element of a generic slice (`fmt` of `[]interface{}`). -/
def goFmtList : VList → List String
  | .nil => []
  | .cons v vs => goFmt v :: goFmtList vs

/-- Renders the entries of a string-keyed map as (key, rendered value). -/
def goFmtPairs : Smap → List (String × String)
  | .nil => []
  | .cons k v rest => (k, goFmt v) :: goFmtPairs rest

/-- Renders the entries of an arbitrarily-keyed map as (rendered key,
rendered value). -/
def goFmtPairsIx : IxMap → List (String × String)
  | .nil => []
  | .cons k v rest => (goFmt k, goFmt v) :: goFmtPairsIx rest
end

/-- Embedding of the `Options` store state: the flat `entries` map and the
mirrored `hierarchy` tree (the `rw` lock is elided in this sequential model). -/
structure Options where
  entries : Smap
  hierarchy : Smap

/-- Embedding of `NewOptions`: empty flat map and empty tree. -/
def NewOptions : Options :=
  { entries := .nil, hierarchy := .nil }

/-- Embedding of `Options.Get`: exact flat-map lookup; a missing key yields
the nil interface, indistinguishable from a stored nil, as in Go. -/
def Options.Get (s : Options) (key : String) : Value :=
  (s.entries.alookup key).getD Value.vnil

/-- Embedding of `Options.getMap`: descends the hierarchy through `key` then
`remains`; at the last segment a branch map is returned as-is while a leaf
returns its parent map `vp`; a missing segment yields nil. -/
def getMap (vp : Smap) (key : String) (remains : List String) : Option Smap :=
  match remains with
  | r :: rs =>
    match vp.alookup key with
    | some (Value.vmap vm) => getMap vm r rs
    | _ => none
  | [] =>
    match vp.alookup key with
    | some (Value.vmap vm) => some vm
    | some _ => some vp
    | none => none

/-- Embedding of `Options.getMapNoLock`: split the key on dots and descend. -/
def Options.getMapNoLock (s : Options) (key : String) : Option Smap :=
  match splitDots key with
  | [] => none
  | a :: rest => getMap s.hierarchy a rest

/-- Embedding of `Options.GetMap` (the shared lock is elided). -/
def Options.GetMap (s : Options) (key : String) : Option Smap :=
  s.getMapNoLock key

/-- Embedding of `Options.GetString`: a stored string is returned verbatim,
nil (or a missing key) yields the empty string, anything else is rendered
with `fmt.Sprintf`. -/
def Options.GetString (s : Options) (key : String) : String :=
  match s.entries.alookup key with
  | none => ""
  | some v =>
    match v with
    | .vstr str => str
    | .vnil => ""
    | _ => goFmt v

/-- Embedding of `Options.GetBool`: case-insensitive match of the string form
against the truthy set. -/
def Options.GetBool (s : Options) (key : String) : Bool :=
  match lowerAscii (s.GetString key) with
  | "1" | "y" | "t" | "yes" | "true" | "ok" | "on" => true
  | _ => false

/-- Embedding of `strconv.Atoi`: optional sign followed by decimal digits
(the 64-bit range check is not modelled; no claim involves overflow). -/
def goAtoi (s : String) : Option Int :=
  let digitsToNat : List Char → Option Nat := fun cs =>
    if cs = [] then none
    else cs.foldl (fun acc c =>
      acc.bind (fun a => if c.isDigit then some (a * 10 + (c.toNat - 48)) else none)) (some 0)
  match s.data with
  | '+' :: rest => (digitsToNat rest).map Int.ofNat
  | '-' :: rest => (digitsToNat rest).map (fun n => -(n : Int))
  | cs => (digitsToNat cs).map Int.ofNat

/-- Embedding of `stringSliceToIntSlice`: parse each element, silently
dropping elements that fail to parse. -/
def stringSliceToIntSlice (xs : List String) : List Int :=
  xs.filterMap goAtoi

/-- Embedding of `Options.GetStringSlice`: dispatch on the stored shape — a
string splits on commas, slices convert element-wise except `[]byte` which is
read back as a string and split on commas, anything else is rendered and
split. -/
def Options.GetStringSlice (s : Options) (key : String) : List String :=
  match s.entries.alookup key with
  | none => []
  | some v =>
    match v with
    | .vstr str => splitOnChar ',' str
    | .vlistS r => r
    | .vlistI ri => ri.map (fun i => toString i)
    | .vbytes bs => splitOnChar ',' (String.mk bs)
    | .vlistV xs => goFmtList xs
    | _ => splitOnChar ',' (goFmt v)

/-- Embedding of `Options.GetIntSlice`: same dispatch as `GetStringSlice`
with element-wise parsing. -/
def Options.GetIntSlice (s : Options) (key : String) : List Int :=
  match s.entries.alookup key with
  | none => []
  | some v =>
    match v with
    | .vstr str => stringSliceToIntSlice (splitOnChar ',' str)
    | .vlistS r => stringSliceToIntSlice r
    | .vlistI ri => ri
    | .vbytes bs => stringSliceToIntSlice (splitOnChar ',' (String.mk bs))
    | .vlistV xs => stringSliceToIntSlice (goFmtList xs)
    | _ => stringSliceToIntSlice (splitOnChar ',' (goFmt v))

/-- Embedding of `wrapWithRxxtPrefix` with the configured prefix segments
passed explicitly: an empty configuration returns the key unchanged, an empty
key returns the dotted prefix alone. -/
def wrapWithRxxtPfx (rxxtPfx : List String) (key : String) : String :=
  if rxxtPfx.length = 0 then key
  else if key.length = 0 then joinWith "." rxxtPfx
  else joinWith "." rxxtPfx ++ "." ++ key

mutual
/-- Embedding of `mergeMap`: when the existing node and the incoming value
are both string-keyed maps their entries are merged recursively, otherwise
the incoming value replaces the node. -/
def mergeMap (m : Smap) (key : String) (val : Value) : Smap :=
  match m.alookup key with
  | some z =>
    match z, val with
    | Value.vmap zm, Value.vmap vm => m.insertKV key (Value.vmap (mergeInto zm vm))
    | _, _ => m.insertKV key val
  | none => m.insertKV key val
termination_by sizeOf val

/-- Embedding of the `for k, v := range vm` loop inside `mergeMap`. -/
def mergeInto (zm : Smap) (vm : Smap) : Smap :=
  match vm with
  | .nil => zm
  | .cons k v rest => mergeInto (mergeMap zm k v) rest
termination_by sizeOf vm
end

/-- Embedding of `et`: wraps `val` in nested one-entry maps keyed by the
segments from index `ix` on. -/
def et (keys : List String) (ix : Nat) (val : Value) : Value :=
  if h : ix + 1 ≤ keys.length then
    Value.vmap (.cons (keys.get ⟨ix, by omega⟩) (et keys (ix + 1) val) .nil)
  else val
termination_by keys.length - ix

/-- Embedding of `Options.SetNx`: a nil value is discarded when the
hierarchy lookup at `key` is non-nil; otherwise the flat entry is written and
the split key is merged into the hierarchy. -/
def Options.SetNx (s : Options) (key : String) (val : Value) : Options :=
  if val.isNil && (s.getMapNoLock key).isSome then s
  else
    let a := splitDots key
    { entries := s.entries.insertKV key val,
      hierarchy := mergeMap s.hierarchy (a.headD "") (et a 1 val) }

/-- Embedding of `Options.Set`: wrap the key with the configured prefix and
delegate to `SetNx`. -/
def Options.Set (rxxtPfx : List String) (s : Options) (key : String) (val : Value) : Options :=
  s.SetNx (wrapWithRxxtPfx rxxtPfx key) val

/-- Embedding of `Options.Reset`: the flat map is cleared and re-initialised
empty (the transient nil map and the deliberate pause are unobservable in
this sequential model); the hierarchy is not touched. -/
def Options.Reset (s : Options) : Options :=
  { s with entries := .nil }

/-- Embedding of `Options.GetHierarchyList`. -/
def Options.GetHierarchyList (s : Options) : Smap :=
  s.hierarchy

/-- Embedding of `Options.envKey`: dots and dashes become underscores, the
result is upper-cased and joined to the environment prefix segments with
underscores. -/
def envKey (envPfx : List String) (key : String) : String :=
  joinWith "_" (envPfx ++ [upperAscii (replaceChar '-' '_' (replaceChar '.' '_' key))])

/-- Embedding of `Options.buildAutomaticEnv`: for each existing flat key
whose derived environment variable is set, write the variable's value through
`Set`, first stripping the dotted prefix (plus one byte) when the key starts
with it; `none` models the Go panic of the slice `key[len(p)+1:]` when the
key is exactly the prefix.  The iteration runs over a snapshot of the current
keys. -/
def Options.buildAutomaticEnv (env : List (String × String)) (envPfx rxxtPfx : List String)
    (s : Options) : Option Options :=
  let p := joinWith "." rxxtPfx
  s.entries.keys.foldlM (fun st key =>
    match alookup env (envKey envPfx key) with
    | some v =>
      if hasPfx p key then
        match goSliceFrom key (p.data.length + 1) with
        | some stripped => some (st.Set rxxtPfx stripped (Value.vstr v))
        | none => none
      else some (st.Set rxxtPfx key (Value.vstr v))
    | none => some st) s

/-- Embedding of `mx`: join a prefix and a key with a dot, the empty prefix
disappearing. -/
def mx (pre k : String) : String :=
  if pre.length = 0 then k else pre ++ "." ++ k

/-- Embedding of `mxIx`: like `mx` with the key rendered by `fmt`. -/
def mxIx (pre : String) (k : Value) : String :=
  if pre.length = 0 then goFmt k else pre ++ "." ++ goFmt k

mutual
/-- Embedding of `Options.loopMap`: ingest a string-keyed decoded document,
recursing into both map shapes and writing every leaf through `SetNx` (the
function's error result is always nil in the source and is elided). -/
def Options.loopMap (s : Options) (kdot : String) (m : Smap) : Options :=
  match m with
  | .nil => s
  | .cons k v rest =>
    match v with
    | Value.vmapIx vm => (s.loopIxMap (mx kdot k) vm).loopMap kdot rest
    | Value.vmap vm => (s.loopMap (mx kdot k) vm).loopMap kdot rest
    | _ => (s.SetNx (mx kdot k) v).loopMap kdot rest
termination_by sizeOf m

/-- Embedding of `Options.loopIxMap`: ingest an arbitrarily-keyed decoded
document, stringifying keys with `fmt`. -/
def Options.loopIxMap (s : Options) (kdot : String) (m : IxMap) : Options :=
  match m with
  | .nil => s
  | .cons k v rest =>
    match v with
    | Value.vmapIx vm => (s.loopIxMap (mxIx kdot k) vm).loopIxMap kdot rest
    | _ => (s.SetNx (mxIx kdot k) v).loopIxMap kdot rest
termination_by sizeOf m
end

/-- Embedding of `GetSectionFrom` over an abstract serializer pair (the YAML
codec is external to the core): when the hierarchy lookup yields nil the body
is skipped and the nil error is returned with the holder untouched. -/
def GetSectionFrom {Holder B E : Type} (rxxtPfx : List String) (s : Options)
    (sectionKeyPath : String) (holder : Holder)
    (marshal : Smap → Except E B) (unmarshal : B → Holder → Except E Holder) :
    Option E × Holder :=
  match s.GetMap (wrapWithRxxtPfx rxxtPfx sectionKeyPath) with
  | none => (none, holder)
  | some fObj =>
    match marshal fObj with
    | .error e => (some e, holder)
    | .ok b =>
      match unmarshal b holder with
      | .error e => (some e, holder)
      | .ok h2 => (none, h2)

/-
Verification-side definitions: a direct view of the hierarchy as a path tree,
used to state and prove the claims about `SetNx` / `mergeMap` / ingestion.
-/

/-- Builds the nested one-entry maps `et` produces, indexed by the remaining
segment list rather than by position. -/
def etAux : List String → Value → Value
  | [], val => val
  | k :: rest, val => Value.vmap (.cons k (etAux rest val) .nil)

/-- Descends the hierarchy through a segment path; the final segment's value
is returned as is (branch or leaf); a missing or non-branch intermediate
segment yields `none`. -/
def treeGet (H : Smap) : List String → Option Value
  | [] => none
  | [a] => H.alookup a
  | a :: b :: rest =>
    match H.alookup a with
    | some (Value.vmap m) => treeGet m (b :: rest)
    | _ => none

/-- The effect of `mergeMap h a (et keys 1 v)` for a non-map `v`: descend
existing branch maps and insert, replacing a leaf or absent node by a fresh
chain of one-entry maps. -/
def setPath (H : Smap) : List String → Value → Smap
  | [], _ => H
  | [a], v => H.insertKV a v
  | a :: b :: rest, v =>
    match H.alookup a with
    | some (Value.vmap zm) => H.insertKV a (Value.vmap (setPath zm (b :: rest) v))
    | _ => H.insertKV a (etAux (b :: rest) v)

/-- Applies a sequence of `SetNx` writes. -/
def applyWrites (s : Options) : List (String × Value) → Options
  | [] => s
  | (k, v) :: rest => applyWrites (s.SetNx k v) rest

/-- Two keys are compatible when they are equal or their dot-segment lists
are not prefixes of one another. -/
def keyUnrel (k1 k2 : String) : Prop :=
  k1 = k2 ∨ (¬ splitDots k1 <+: splitDots k2 ∧ ¬ splitDots k2 <+: splitDots k1)

/-- The flat/tree consistency invariant of the store: every flat entry is a
non-map value reachable in the tree at the key's segment path, every non-map
value reachable in the tree is some flat entry at its path, and flat keys are
pairwise segment-prefix-free. -/
def StoreInv (s : Options) : Prop :=
  (∀ k v, s.entries.alookup k = some v →
    v.isMapV = false ∧ treeGet s.hierarchy (splitDots k) = some v) ∧
  (∀ path v, treeGet s.hierarchy path = some v → v.isMapV = false →
    ∃ k, s.entries.alookup k = some v ∧ splitDots k = path) ∧
  (∀ k1 v1 k2 v2, s.entries.alookup k1 = some v1 → s.entries.alookup k2 = some v2 →
    k1 ≠ k2 → ¬ splitDots k1 <+: splitDots k2)

/-- Membership test for a key of an `Smap`. -/
def Smap.hasKey (m : Smap) (key : String) : Bool :=
  (m.alookup key).isSome

/-- The value `mergeMap` leaves at the written key, as a function of the
previous value there: a recursive union when both sides are string-keyed
maps, the incoming value otherwise. -/
def mergeVal : Option Value → Value → Value
  | some (Value.vmap zm), Value.vmap vm => Value.vmap (mergeInto zm vm)
  | _, v => v

/-- Tests that a string contains no dot, so that it is a single key segment. -/
def dotFree (s : String) : Bool :=
  s.data.all (fun c => decide (c ≠ '.'))

/-- Joins a segment path back into a dotted key. -/
def joinDots (path : List String) : String :=
  joinWith "." path

mutual
/-- Well-formedness of a decoded document for the round-trip claim: keys are
nonempty, dot-free and unique at every level, and every map value is
string-keyed. -/
def docWF : Smap → Bool
  | .nil => true
  | .cons k v rest => !(k == "") && dotFree k && !rest.hasKey k && docWFv v && docWF rest
termination_by m => sizeOf m

/-- Document value well-formedness: recurse into string-keyed maps; the
arbitrarily-keyed shape is excluded (ingestion rewrites its keys). -/
def docWFv : Value → Bool
  | .vmap m => docWF m
  | .vmapIx _ => false
  | _ => true
termination_by v => sizeOf v
end

/-- Segment path denoted by an accumulated ingestion prefix: the empty
prefix denotes the empty path, any other prefix its dot segments. -/
def prePath (pre : String) : List String :=
  if pre = "" then [] else splitDots pre

/-- Flattens a document to the `SetNx` writes ingestion performs, in
ingestion order: leaves become (joined key, value) pairs. -/
def flattenDoc (pre : String) : Smap → List (String × Value)
  | .nil => []
  | .cons k v rest =>
    (match v with
     | .vmap m => flattenDoc (mx pre k) m
     | _ => [(mx pre k, v)]) ++ flattenDoc pre rest
termination_by m => sizeOf m

/-- The nested owner document of the specification example:
`{owner: {name: "Tom", org: "GitHub"}}`. -/
def ownerDoc : Smap :=
  Smap.cons "owner" (Value.vmap (Smap.cons "name" (Value.vstr "Tom")
    (Smap.cons "org" (Value.vstr "GitHub") Smap.nil))) Smap.nil

/-- A decoded document whose top-level keys themselves contain a dot:
`{a: 1, "a.b": 2}`. -/
def dottedDoc : Smap :=
  Smap.cons "a" (Value.vint 1) (Smap.cons "a.b" (Value.vint 2) Smap.nil)

/-
Basic lemmas about the embedded map and string operations.
-/

/-- Lookup after update: the written key reads back, others are unchanged. -/
theorem Smap.alookup_insertKV : ∀ (m : Smap) (k : String) (v : Value) (k' : String),
    (m.insertKV k v).alookup k' = if k' = k then some v else m.alookup k'
  | .nil, k, v, k' => by simp [Smap.insertKV, Smap.alookup]
  | .cons a w rest, k, v, k' => by
    by_cases h1 : k = a
    · subst h1
      by_cases h2 : k' = k <;> simp [Smap.insertKV, Smap.alookup, h2]
    · simp only [Smap.insertKV, if_neg h1, Smap.alookup, Smap.alookup_insertKV rest k v k']
      by_cases h2 : k' = a
      · subst h2
        simp [Ne.symm h1]
      · simp [h2]

/-- Splitting never yields the empty list. -/
theorem splitChars_ne_nil (sep : Char) (cs : List Char) : splitChars sep cs ≠ [] := by
  cases cs with
  | nil => simp [splitChars]
  | cons c rest =>
    simp only [splitChars]
    split <;> simp

/-- Key splitting never yields the empty list (Go `strings.Split` contract). -/
theorem splitDots_ne_nil (s : String) : splitDots s ≠ [] := by
  have h := splitChars_ne_nil '.' s.data
  simp only [splitDots, splitOnChar, ne_eq, List.map_eq_nil_iff]
  exact h

/-- The `et` wrapper viewed on the remaining segment suffix. -/
theorem et_drop (keys : List String) (ix : Nat) (val : Value) :
    et keys ix val = etAux (keys.drop ix) val := by
  rw [et]
  by_cases h : ix + 1 ≤ keys.length
  · rw [dif_pos h, et_drop keys (ix + 1) val,
      List.drop_eq_getElem_cons (show ix < keys.length by omega)]
    rfl
  · rw [dif_neg h, List.drop_of_length_le (by omega)]
    rfl
termination_by keys.length - ix

/-- A `SetNx` with a nil value is the identity when the hierarchy lookup at
the key is non-nil. -/
theorem SetNx_noop (s : Options) (key : String) (h : (s.getMapNoLock key).isSome) :
    s.SetNx key Value.vnil = s := by
  simp [Options.SetNx, Value.isNil, h]

/-- Outside the nil-guard case, `SetNx` writes the flat entry and merges the
split key into the hierarchy. -/
theorem SetNx_write (s : Options) (key : String) (v : Value)
    (h : v.isNil = false ∨ (s.getMapNoLock key).isSome = false) :
    s.SetNx key v = Options.mk (s.entries.insertKV key v)
      (mergeMap s.hierarchy ((splitDots key).headD "") (et (splitDots key) 1 v)) := by
  unfold Options.SetNx
  rw [if_neg]
  rcases h with h | h <;> simp [h]

/-- Bridge between the source-level merge of an `et` chain and the path view. -/
theorem mergeMap_etAux (H : Smap) (a : String) (rest : List String) (v : Value)
    (hv : v.isMapV = false) :
    mergeMap H a (etAux rest v) = setPath H (a :: rest) v := by
  induction rest generalizing H a with
  | nil =>
    cases hl : H.alookup a with
    | none => simp [mergeMap, hl, setPath, etAux]
    | some z =>
      cases z <;> cases v <;> simp_all [mergeMap, setPath, etAux, Value.isMapV]
  | cons b bs ih =>
    cases hl : H.alookup a with
    | none => simp [mergeMap, hl, setPath, etAux]
    | some z =>
      cases z <;>
        simp_all [mergeMap, setPath, etAux, mergeInto, Value.isMapV, ih]

/-- The hierarchy after a non-guarded `SetNx` of a non-map value is a path
update. -/
theorem SetNx_hierarchy (s : Options) (key : String) (v : Value) (a : String)
    (rest : List String) (hsd : splitDots key = a :: rest) (hv : v.isMapV = false)
    (h : v.isNil = false ∨ (s.getMapNoLock key).isSome = false) :
    (s.SetNx key v).hierarchy = setPath s.hierarchy (a :: rest) v := by
  rw [SetNx_write s key v h]
  simp only [hsd, et_drop, List.headD_cons, List.drop_succ_cons, List.drop_zero]
  exact mergeMap_etAux s.hierarchy a rest v hv

/-- The flat map after a non-guarded `SetNx` is a key update. -/
theorem SetNx_entries (s : Options) (key : String) (v : Value)
    (h : v.isNil = false ∨ (s.getMapNoLock key).isSome = false) :
    (s.SetNx key v).entries = s.entries.insertKV key v := by
  rw [SetNx_write s key v h]

/-- `getMap` succeeds exactly when the tree descent reaches a value. -/
theorem getMap_isSome (vp : Smap) (a : String) (rest : List String) :
    (getMap vp a rest).isSome = (treeGet vp (a :: rest)).isSome := by
  induction rest generalizing vp a with
  | nil =>
    cases hl : vp.alookup a with
    | none => simp [getMap, treeGet, hl]
    | some z => cases z <;> simp [getMap, treeGet, hl]
  | cons b bs ih =>
    cases hl : vp.alookup a with
    | none => simp [getMap, treeGet, hl]
    | some z => cases z <;> simp [getMap, treeGet, hl, ih]

/-- `getMapNoLock` succeeds exactly when the tree descent along the split key
reaches a value. -/
theorem getMapNoLock_isSome (s : Options) (key : String) :
    (s.getMapNoLock key).isSome = (treeGet s.hierarchy (splitDots key)).isSome := by
  rcases hsd : splitDots key with _ | ⟨a, rest⟩
  · exact absurd hsd (splitDots_ne_nil key)
  · unfold Options.getMapNoLock
    rw [hsd]
    exact getMap_isSome s.hierarchy a rest

/-
Lemmas describing the effect of a path update on tree descents.
-/

/-- Descending a fresh chain along its own path reaches the value. -/
theorem treeGet_chain (b : String) (bs : List String) (v : Value) :
    treeGet (Smap.cons b (etAux bs v) .nil) (b :: bs) = some v := by
  induction bs generalizing b with
  | nil => simp [treeGet, etAux, Smap.alookup]
  | cons c cs ih =>
    simpa [treeGet, etAux, Smap.alookup] using ih c

/-- Descending a fresh chain along an unrelated path fails. -/
theorem treeGet_chain_off (b : String) (bs : List String) (v : Value) (path : List String)
    (h1 : ¬ (b :: bs) <+: path) (h2 : ¬ path <+: (b :: bs)) :
    treeGet (Smap.cons b (etAux bs v) .nil) path = none := by
  induction bs generalizing b path with
  | nil =>
    cases path with
    | nil => exact absurd (List.nil_prefix) h2
    | cons d path' =>
      by_cases hdb : d = b
      · subst hdb
        exact absurd (List.cons_prefix_cons.2 ⟨rfl, List.nil_prefix⟩) h1
      · cases path' <;> simp [treeGet, etAux, Smap.alookup, hdb]
  | cons c cs ih =>
    cases path with
    | nil => exact absurd (List.nil_prefix) h2
    | cons d path' =>
      by_cases hdb : d = b
      · subst hdb
        cases path' with
        | nil => exact absurd (List.cons_prefix_cons.2 ⟨rfl, List.nil_prefix⟩) h2
        | cons e path'' =>
          have h1' : ¬ (c :: cs) <+: (e :: path'') := fun hp =>
            h1 (List.cons_prefix_cons.2 ⟨rfl, hp⟩)
          have h2' : ¬ (e :: path'') <+: (c :: cs) := fun hp =>
            h2 (List.cons_prefix_cons.2 ⟨rfl, hp⟩)
          simpa [treeGet, etAux, Smap.alookup] using ih c (e :: path'') h1' h2'
      · cases path' <;> simp [treeGet, etAux, Smap.alookup, hdb]

/-- Descending a fresh chain strictly past its non-map value fails. -/
theorem treeGet_chain_below (b : String) (bs : List String) (v : Value) (q : List String)
    (hv : v.isMapV = false) (hq : q ≠ []) :
    treeGet (Smap.cons b (etAux bs v) .nil) ((b :: bs) ++ q) = none := by
  induction bs generalizing b with
  | nil =>
    cases q with
    | nil => exact absurd rfl hq
    | cons q0 q' =>
      cases v <;> simp_all [treeGet, etAux, Smap.alookup, Value.isMapV]
  | cons c cs ih =>
    simpa [treeGet, etAux, Smap.alookup] using ih c

/-- Descending a fresh chain along a strict nonempty prefix of its path meets
a branch map. -/
theorem treeGet_chain_above (b : String) (bs : List String) (v : Value)
    (path r : List String) (hbr : b :: bs = path ++ r) (hpath : path ≠ []) (hr : r ≠ []) :
    ∃ m', treeGet (Smap.cons b (etAux bs v) .nil) path = some (Value.vmap m') := by
  induction path generalizing b bs r with
  | nil => exact absurd rfl hpath
  | cons c path' ih =>
    cases path' with
    | nil =>
      simp only [List.cons_append, List.nil_append] at hbr
      injection hbr with hbc hbs
      subst hbc
      subst hbs
      cases bs with
      | nil => exact absurd rfl hr
      | cons r0 r' =>
        exact ⟨Smap.cons r0 (etAux r' v) .nil, by simp [treeGet, etAux, Smap.alookup]⟩
    | cons d path'' =>
      simp only [List.cons_append] at hbr
      injection hbr with hbc hbs
      subst hbc
      subst hbs
      have ihx := ih d (path'' ++ r) r rfl (by simp) hr
      simpa [treeGet, etAux, Smap.alookup] using ihx

/-- The path update takes the shape of a single top-level map write. -/
theorem setPath_shape (H : Smap) (a : String) (rest : List String) (v : Value) :
    ∃ X, setPath H (a :: rest) v = H.insertKV a X := by
  cases rest with
  | nil => exact ⟨v, rfl⟩
  | cons b bs =>
    cases hl : H.alookup a with
    | none => exact ⟨etAux (b :: bs) v, by simp [setPath, hl]⟩
    | some z =>
      cases z
      all_goals first
        | (rename_i zm
           exact ⟨Value.vmap (setPath zm (b :: bs) v), by simp [setPath, hl]⟩)
        | exact ⟨etAux (b :: bs) v, by simp [setPath, hl]⟩

/-- Descents that start at a different head key ignore a top-level write. -/
theorem treeGet_insert_ne (H : Smap) (a : String) (X : Value) (c : String)
    (path' : List String) (h : c ≠ a) :
    treeGet (H.insertKV a X) (c :: path') = treeGet H (c :: path') := by
  cases path' <;> simp [treeGet, Smap.alookup_insertKV, h]

/-- Descending the updated tree along the written path reaches the value. -/
theorem treeGet_setPath_self (H : Smap) (ks : List String) (v : Value) (h : ks ≠ []) :
    treeGet (setPath H ks v) ks = some v := by
  induction ks generalizing H with
  | nil => exact absurd rfl h
  | cons a rest ih =>
    cases rest with
    | nil => simp [setPath, treeGet, Smap.alookup_insertKV]
    | cons b bs =>
      cases hl : H.alookup a with
      | none =>
        simpa [setPath, hl, treeGet, Smap.alookup_insertKV] using treeGet_chain b bs v
      | some z =>
        cases z
        all_goals first
          | (rename_i zm
             simpa [setPath, hl, treeGet, Smap.alookup_insertKV] using ih zm (by simp))
          | simpa [setPath, hl, treeGet, Smap.alookup_insertKV] using treeGet_chain b bs v

/-- Descents along paths unrelated to the written path are unchanged. -/
theorem treeGet_setPath_frame (H : Smap) (ks : List String) (v : Value) (path : List String)
    (h1 : ¬ ks <+: path) (h2 : ¬ path <+: ks) :
    treeGet (setPath H ks v) path = treeGet H path := by
  induction ks generalizing H path with
  | nil => exact absurd (List.nil_prefix) h1
  | cons a ks' ih =>
    cases path with
    | nil => exact absurd (List.nil_prefix) h2
    | cons c path' =>
      by_cases hca : c = a
      · subst hca
        cases ks' with
        | nil => exact absurd (List.cons_prefix_cons.2 ⟨rfl, List.nil_prefix⟩) h1
        | cons b bs =>
          cases path' with
          | nil => exact absurd (List.cons_prefix_cons.2 ⟨rfl, List.nil_prefix⟩) h2
          | cons d path'' =>
            have h1' : ¬ (b :: bs) <+: (d :: path'') := fun hp =>
              h1 (List.cons_prefix_cons.2 ⟨rfl, hp⟩)
            have h2' : ¬ (d :: path'') <+: (b :: bs) := fun hp =>
              h2 (List.cons_prefix_cons.2 ⟨rfl, hp⟩)
            cases hl : H.alookup c with
            | none =>
              have hold : treeGet H (c :: d :: path'') = none := by
                simp [treeGet, hl]
              rw [hold]
              simpa [setPath, hl, treeGet, Smap.alookup_insertKV] using
                treeGet_chain_off b bs v (d :: path'') h1' h2'
            | some z =>
              cases z
              all_goals first
                | (rename_i zm
                   have hold : treeGet H (c :: d :: path'') = treeGet zm (d :: path'') := by
                     simp [treeGet, hl]
                   rw [hold]
                   simpa [setPath, hl, treeGet, Smap.alookup_insertKV] using ih zm _ h1' h2')
                | (have hold : treeGet H (c :: d :: path'') = none := by simp [treeGet, hl]
                   rw [hold]
                   simpa [setPath, hl, treeGet, Smap.alookup_insertKV] using
                     treeGet_chain_off b bs v (d :: path'') h1' h2')
      · obtain ⟨X, hX⟩ := setPath_shape H a ks' v
        rw [hX, treeGet_insert_ne H a X c path' hca]

/-- Descending strictly past the written path of a non-map value fails. -/
theorem treeGet_setPath_below (H : Smap) (ks q : List String) (v : Value)
    (hks : ks ≠ []) (hq : q ≠ []) (hv : v.isMapV = false) :
    treeGet (setPath H ks v) (ks ++ q) = none := by
  induction ks generalizing H with
  | nil => exact absurd rfl hks
  | cons a rest ih =>
    cases rest with
    | nil =>
      cases q with
      | nil => exact absurd rfl hq
      | cons q0 q' =>
        cases v <;> simp_all [setPath, treeGet, Smap.alookup_insertKV, Value.isMapV]
    | cons b bs =>
      cases hl : H.alookup a with
      | none =>
        simpa [setPath, hl, treeGet, Smap.alookup_insertKV] using
          treeGet_chain_below b bs v q hv hq
      | some z =>
        cases z
        all_goals first
          | (rename_i zm
             simpa [setPath, hl, treeGet, Smap.alookup_insertKV] using ih zm (by simp))
          | simpa [setPath, hl, treeGet, Smap.alookup_insertKV] using
              treeGet_chain_below b bs v q hv hq

/-- Descending along a strict nonempty prefix of the written path meets a
branch map. -/
theorem treeGet_setPath_above (H : Smap) (path r : List String) (v : Value)
    (hpath : path ≠ []) (hr : r ≠ []) :
    ∃ m', treeGet (setPath H (path ++ r) v) path = some (Value.vmap m') := by
  induction path generalizing H with
  | nil => exact absurd rfl hpath
  | cons c path' ih =>
    cases path' with
    | nil =>
      cases r with
      | nil => exact absurd rfl hr
      | cons r0 r' =>
        cases hl : H.alookup c with
        | none =>
          exact ⟨Smap.cons r0 (etAux r' v) .nil,
            by simp [setPath, hl, treeGet, Smap.alookup_insertKV, etAux]⟩
        | some z =>
          cases z
          all_goals first
            | (rename_i zm
               exact ⟨setPath zm (r0 :: r') v,
                 by simp [setPath, hl, treeGet, Smap.alookup_insertKV]⟩)
            | exact ⟨Smap.cons r0 (etAux r' v) .nil,
                by simp [setPath, hl, treeGet, Smap.alookup_insertKV, etAux]⟩
    | cons d path'' =>
      cases hl : H.alookup c with
      | none =>
        have hstep : treeGet (setPath H ((c :: d :: path'') ++ r) v) (c :: d :: path'')
            = treeGet (Smap.cons d (etAux (path'' ++ r) v) .nil) (d :: path'') := by
          simp [setPath, hl, treeGet, Smap.alookup_insertKV, etAux, List.cons_append]
        rw [hstep]
        exact treeGet_chain_above d (path'' ++ r) v (d :: path'') r (by simp) (by simp) hr
      | some z =>
        cases z
        all_goals first
          | (rename_i zm
             have hstep : treeGet (setPath H ((c :: d :: path'') ++ r) v) (c :: d :: path'')
                 = treeGet (setPath zm ((d :: path'') ++ r) v) (d :: path'') := by
               simp [setPath, hl, treeGet, Smap.alookup_insertKV, List.cons_append]
             rw [hstep]
             exact ih zm (by simp))
          | (have hstep : treeGet (setPath H ((c :: d :: path'') ++ r) v) (c :: d :: path'')
                 = treeGet (Smap.cons d (etAux (path'' ++ r) v) .nil) (d :: path'') := by
               simp [setPath, hl, treeGet, Smap.alookup_insertKV, etAux, List.cons_append]
             rw [hstep]
             exact treeGet_chain_above d (path'' ++ r) v (d :: path'') r (by simp) (by simp) hr)

/-- Mutual prefixes are equal. -/
theorem prefix_antisymm {l m : List String} (h1 : l <+: m) (h2 : m <+: l) : l = m :=
  h1.eq_of_length (le_antisymm h1.length_le h2.length_le)

/-- An empty tree yields no descent. -/
theorem treeGet_nil (path : List String) : treeGet .nil path = none := by
  cases path with
  | nil => rfl
  | cons a rest => cases rest <;> simp [treeGet, Smap.alookup]

/-- The empty store satisfies the consistency invariant. -/
theorem StoreInv_new : StoreInv NewOptions := by
  refine ⟨?_, ?_, ?_⟩
  · intro k v hk
    simp [NewOptions, Smap.alookup] at hk
  · intro path v htg hv
    rw [show NewOptions.hierarchy = Smap.nil from rfl, treeGet_nil] at htg
    cases htg
  · intro k1 v1 k2 v2 hk1 _ _
    simp [NewOptions, Smap.alookup] at hk1

/-- One `SetNx` of a non-map value, compatible with every present key,
preserves the consistency invariant. -/
theorem StoreInv_SetNx (s : Options) (key : String) (v : Value)
    (hinv : StoreInv s) (hv : v.isMapV = false)
    (hcompat : ∀ k w, s.entries.alookup k = some w → keyUnrel k key) :
    StoreInv (s.SetNx key v) := by
  by_cases hg : (v.isNil && (s.getMapNoLock key).isSome) = true
  · have hid : s.SetNx key v = s := by
      simp only [Options.SetNx, if_pos hg]
    rw [hid]
    exact hinv
  · have hwrite : v.isNil = false ∨ (s.getMapNoLock key).isSome = false := by
      cases hA : v.isNil <;> cases hB : (s.getMapNoLock key).isSome <;> simp_all
    obtain ⟨a, rest, hsd⟩ : ∃ a rest, splitDots key = a :: rest := by
      rcases h : splitDots key with _ | ⟨a, rest⟩
      · exact absurd h (splitDots_ne_nil key)
      · exact ⟨_, _, rfl⟩
    have hent := SetNx_entries s key v hwrite
    have hhier := SetNx_hierarchy s key v a rest hsd hv hwrite
    obtain ⟨h1, h2, h3⟩ := hinv
    refine ⟨?_, ?_, ?_⟩
    · intro k w hk
      rw [hent, Smap.alookup_insertKV] at hk
      by_cases hkk : k = key
      · rw [if_pos hkk] at hk
        injection hk with hk
        subst hk
        refine ⟨hv, ?_⟩
        rw [hhier, hkk, hsd]
        exact treeGet_setPath_self s.hierarchy (a :: rest) v (by simp)
      · rw [if_neg hkk] at hk
        obtain ⟨hw, htg⟩ := h1 k w hk
        refine ⟨hw, ?_⟩
        rcases hcompat k w hk with heq | ⟨hp1, hp2⟩
        · exact absurd heq hkk
        · rw [hsd] at hp1 hp2
          rw [hhier, treeGet_setPath_frame s.hierarchy (a :: rest) v (splitDots k) hp2 hp1]
          exact htg
    · intro path w htg hw
      rw [hhier] at htg
      by_cases hp1 : (a :: rest) <+: path
      · by_cases hp2 : path <+: (a :: rest)
        · have hpath : path = a :: rest := prefix_antisymm hp2 hp1
          subst hpath
          rw [treeGet_setPath_self s.hierarchy (a :: rest) v (by simp)] at htg
          injection htg with htg
          subst htg
          refine ⟨key, ?_, hsd⟩
          rw [hent, Smap.alookup_insertKV, if_pos rfl]
        · obtain ⟨q, hq⟩ := hp1
          have hqne : q ≠ [] := by
            rintro rfl
            exact hp2 (by rw [← hq, List.append_nil])
          rw [← hq, treeGet_setPath_below s.hierarchy (a :: rest) q v (by simp) hqne hv] at htg
          cases htg
      · by_cases hp2 : path <+: (a :: rest)
        · cases hpath : path with
          | nil => rw [hpath, show treeGet _ [] = none from rfl] at htg; cases htg
          | cons c p' =>
            subst hpath
            obtain ⟨r, hr⟩ := hp2
            have hrne : r ≠ [] := by
              rintro rfl
              rw [List.append_nil] at hr
              exact hp1 (by rw [hr])
            obtain ⟨m', hm⟩ := treeGet_setPath_above s.hierarchy (c :: p') r v (by simp) hrne
            rw [hr] at hm
            rw [hm] at htg
            injection htg with htg
            subst htg
            simp [Value.isMapV] at hw
        · rw [treeGet_setPath_frame s.hierarchy (a :: rest) v path hp1 hp2] at htg
          obtain ⟨k, hk, hks⟩ := h2 path w htg hw
          refine ⟨k, ?_, hks⟩
          have hkk : k ≠ key := by
            intro hkk
            rw [hkk, hsd] at hks
            exact hp1 (hks ▸ List.prefix_refl path)
          rw [hent, Smap.alookup_insertKV, if_neg hkk]
          exact hk
    · intro k1 v1 k2 v2 hk1 hk2 hne
      rw [hent, Smap.alookup_insertKV] at hk1 hk2
      by_cases e1 : k1 = key <;> by_cases e2 : k2 = key
      · exact absurd (e1.trans e2.symm) hne
      · rw [if_pos e1] at hk1
        rw [if_neg e2] at hk2
        rcases hcompat k2 v2 hk2 with heq | ⟨hq1, hq2⟩
        · exact absurd heq e2
        · rw [e1]
          exact hq2
      · rw [if_neg e1] at hk1
        rcases hcompat k1 v1 hk1 with heq | ⟨hq1, hq2⟩
        · exact absurd heq e1
        · rw [e2]
          exact hq1
      · rw [if_neg e1] at hk1
        rw [if_neg e2] at hk2
        exact h3 k1 v1 k2 v2 hk1 hk2 hne

/-- After a `SetNx`, every present key is the written key or a previously
present key. -/
theorem SetNx_entries_subset (s : Options) (key : String) (v : Value) (k : String) (w : Value)
    (hk : (s.SetNx key v).entries.alookup k = some w) :
    k = key ∨ s.entries.alookup k = some w := by
  by_cases hg : (v.isNil && (s.getMapNoLock key).isSome) = true
  · rw [show s.SetNx key v = s by simp only [Options.SetNx, if_pos hg]] at hk
    exact .inr hk
  · have hwrite : v.isNil = false ∨ (s.getMapNoLock key).isSome = false := by
      cases hA : v.isNil <;> cases hB : (s.getMapNoLock key).isSome <;> simp_all
    rw [SetNx_entries s key v hwrite, Smap.alookup_insertKV] at hk
    by_cases hkk : k = key
    · exact .inl hkk
    · rw [if_neg hkk] at hk
      exact .inr hk

/-- A sequence of compatible non-map `SetNx` writes preserves the
consistency invariant. -/
theorem StoreInv_applyWrites (ws : List (String × Value)) (s : Options)
    (hinv : StoreInv s)
    (hvals : ∀ p ∈ ws, p.2.isMapV = false)
    (hdom : ∀ k w, s.entries.alookup k = some w → ∀ p ∈ ws, keyUnrel k p.1)
    (hpw : ws.Pairwise (fun p q => keyUnrel p.1 q.1)) :
    StoreInv (applyWrites s ws) := by
  induction ws generalizing s with
  | nil => exact hinv
  | cons p rest ih =>
    obtain ⟨key, v⟩ := p
    have hstep : StoreInv (s.SetNx key v) := by
      refine StoreInv_SetNx s key v hinv (hvals _ (List.mem_cons_self _ _)) ?_
      intro k w hk
      exact hdom k w hk _ (List.mem_cons_self _ _)
    refine ih (s.SetNx key v) hstep ?_ ?_ hpw.of_cons
    · intro p hp
      exact hvals p (List.mem_cons_of_mem _ hp)
    · intro k w hk p hp
      rcases SetNx_entries_subset s key v k w hk with hkk | hold
      · subst hkk
        exact (List.pairwise_cons.mp hpw).1 p hp
      · exact hdom k w hold p (List.mem_cons_of_mem _ hp)

/-
Claim theorems.
-/

/-- C1, counterexample: the flat/tree consistency invariant fails for
arbitrary `SetNx` sequences.  After `SetNx "a" 1; SetNx "a.b" 2` the flat map
still holds `"a" ↦ 1` but descending the tree through segment `a` meets the
branch map created for `a.b`, not the value `1`. -/
theorem c1_consistency_cex :
    ((NewOptions.SetNx "a" (Value.vint 1)).SetNx "a.b" (Value.vint 2)).entries.alookup "a"
        = some (Value.vint 1) ∧
    treeGet ((NewOptions.SetNx "a" (Value.vint 1)).SetNx "a.b" (Value.vint 2)).hierarchy
        (splitDots "a") = some (Value.vmap (.cons "b" (Value.vint 2) .nil)) ∧
    some (Value.vmap (.cons "b" (Value.vint 2) .nil)) ≠ some (Value.vint 1) := by
  refine ⟨rfl, ?_, by simp⟩
  simp [Options.SetNx, Options.getMapNoLock, getMap, splitDots, splitOnChar, splitChars,
    Smap.alookup, Smap.insertKV, mergeMap, mergeInto, et_drop, etAux, Value.isNil, treeGet,
    NewOptions]

/-- C1, amended: for every sequence of `SetNx` writes of non-map values whose
keys are pairwise equal or segment-prefix-free, the flat/tree consistency
invariant holds: every flat entry is reached exactly by the tree descent
through its key's dot segments, and every non-map value reachable in the tree
is the value of exactly one flat key whose segment list is the descent path. -/
theorem c1_consistency_amended (ws : List (String × Value))
    (hvals : ∀ p ∈ ws, p.2.isMapV = false)
    (hpw : ws.Pairwise (fun p q => keyUnrel p.1 q.1)) :
    (∀ k v, (applyWrites NewOptions ws).entries.alookup k = some v →
      treeGet (applyWrites NewOptions ws).hierarchy (splitDots k) = some v) ∧
    (∀ path v, treeGet (applyWrites NewOptions ws).hierarchy path = some v →
      v.isMapV = false →
      ∃ k, (applyWrites NewOptions ws).entries.alookup k = some v ∧ splitDots k = path ∧
        ∀ k' v', (applyWrites NewOptions ws).entries.alookup k' = some v' →
          splitDots k' = path → k' = k) := by
  have hinv := StoreInv_applyWrites ws NewOptions StoreInv_new hvals
    (by intro k w hk; simp [NewOptions, Smap.alookup] at hk) hpw
  obtain ⟨h1, h2, h3⟩ := hinv
  constructor
  · intro k v hk
    exact (h1 k v hk).2
  · intro path v htg hv
    obtain ⟨k, hk, hks⟩ := h2 path v htg hv
    refine ⟨k, hk, hks, ?_⟩
    intro k' v' hk' hks'
    by_contra hne
    exact h3 k' v' k v hk' hk hne (by rw [hks', hks])

/-- C1, witness: the amended invariant applied to the concrete write
sequence `SetNx "a.b" 1; SetNx "c" x`. -/
theorem c1_consistency_amended_witness :
    treeGet (applyWrites NewOptions [("a.b", Value.vint 1), ("c", Value.vstr "x")]).hierarchy
      (splitDots "a.b") = some (Value.vint 1) :=
  (c1_consistency_amended [("a.b", Value.vint 1), ("c", Value.vstr "x")]
    (by intro p hp; simp at hp; rcases hp with rfl | rfl <;> rfl)
    (by
      refine List.pairwise_cons.2 ⟨?_, List.pairwise_singleton _ _⟩
      intro q hq
      simp at hq
      subst hq
      right
      constructor <;> decide)).1 "a.b" (Value.vint 1) rfl

/-- C2, counterexample: the nil-clobber guard also fires when the key holds a
leaf value, because `getMap` returns the parent map for a leaf: after
`SetNx "a" 1`, the tree at `a` is the leaf `1` (not a branch), yet
`SetNx "a" nil` is a no-op and the nil value is not stored. -/
theorem c2_nil_guard_cex :
    treeGet (NewOptions.SetNx "a" (Value.vint 1)).hierarchy (splitDots "a")
        = some (Value.vint 1) ∧
    (NewOptions.SetNx "a" (Value.vint 1)).SetNx "a" Value.vnil
        = NewOptions.SetNx "a" (Value.vint 1) ∧
    ((NewOptions.SetNx "a" (Value.vint 1)).SetNx "a" Value.vnil).entries.alookup "a"
        = some (Value.vint 1) := by
  have h1 : treeGet (NewOptions.SetNx "a" (Value.vint 1)).hierarchy (splitDots "a")
      = some (Value.vint 1) := by
    simp [Options.SetNx, Options.getMapNoLock, getMap, splitDots, splitOnChar, splitChars,
      Smap.alookup, Smap.insertKV, mergeMap, mergeInto, et_drop, etAux, Value.isNil, treeGet,
      NewOptions]
  have h2 : (NewOptions.SetNx "a" (Value.vint 1)).SetNx "a" Value.vnil
      = NewOptions.SetNx "a" (Value.vint 1) := by
    apply SetNx_noop
    rw [getMapNoLock_isSome, h1]
    rfl
  exact ⟨h1, h2, by rw [h2]; rfl⟩

/-- C2, amended: `SetNx key nil` is a no-op exactly when the tree descent
along the key's segments reaches an existing node — intermediate segments
resolve to branch maps and the last segment is present with any value,
branch or leaf alike (`getMap` returns the parent map for a leaf, so a leaf
also triggers the guard).  In every other case the nil is stored under the
key in the flat map. -/
theorem c2_nil_guard_amended (s : Options) (key : String) :
    (s.SetNx key Value.vnil = s ↔ (treeGet s.hierarchy (splitDots key)).isSome) ∧
    ((treeGet s.hierarchy (splitDots key)).isSome = false →
      (s.SetNx key Value.vnil).entries.alookup key = some Value.vnil) := by
  have hiff : (s.getMapNoLock key).isSome = (treeGet s.hierarchy (splitDots key)).isSome :=
    getMapNoLock_isSome s key
  constructor
  · constructor
    · intro heq
      by_contra hns
      have hfalse : (treeGet s.hierarchy (splitDots key)).isSome = false := by
        cases h : (treeGet s.hierarchy (splitDots key)).isSome
        · rfl
        · exact absurd h hns
      obtain ⟨a, rest, hsd⟩ : ∃ a rest, splitDots key = a :: rest := by
        rcases h : splitDots key with _ | ⟨a, rest⟩
        · exact absurd h (splitDots_ne_nil key)
        · exact ⟨_, _, rfl⟩
      have hhier := SetNx_hierarchy s key Value.vnil a rest hsd rfl
        (.inr (hiff.trans hfalse))
      have hself := treeGet_setPath_self s.hierarchy (a :: rest) Value.vnil (by simp)
      rw [← hhier, heq] at hself
      rw [hsd] at hfalse
      rw [hself] at hfalse
      cases hfalse
    · intro hsome
      apply SetNx_noop
      rw [hiff]
      exact hsome
  · intro hfalse
    rw [SetNx_entries s key Value.vnil (.inr (hiff.trans hfalse)), Smap.alookup_insertKV,
      if_pos rfl]

/-- C2, witness: both branches of the amended guard characterization at
concrete stores — the no-op when `a` exists as a leaf and the successful nil
store into an empty store. -/
theorem c2_nil_guard_amended_witness :
    (NewOptions.SetNx "a" (Value.vint 1)).SetNx "a" Value.vnil
        = NewOptions.SetNx "a" (Value.vint 1) ∧
    (NewOptions.SetNx "b" Value.vnil).entries.alookup "b" = some Value.vnil := by
  constructor
  · apply (c2_nil_guard_amended (NewOptions.SetNx "a" (Value.vint 1)) "a").1.mpr
    simp [Options.SetNx, Options.getMapNoLock, getMap, splitDots, splitOnChar, splitChars,
      Smap.alookup, Smap.insertKV, mergeMap, mergeInto, et_drop, etAux, Value.isNil, treeGet,
      NewOptions]
  · exact (c2_nil_guard_amended NewOptions "b").2 rfl

/-- C8: after `Reset` the flat map is empty — `Get` returns the nil sentinel
for every key — while the hierarchy tree (and so `GetHierarchyList`) is
exactly the tree from before the call; no other state exists in the store. -/
theorem c8_reset_frame (s : Options) :
    (s.Reset).entries = .nil ∧ (∀ key, (s.Reset).Get key = Value.vnil) ∧
    (s.Reset).hierarchy = s.hierarchy ∧
    (s.Reset).GetHierarchyList = s.GetHierarchyList := by
  exact ⟨rfl, fun key => rfl, rfl, rfl⟩

/-- C5: `GetBool` is true exactly when the lower-cased string form of the
stored value (via `GetString`) is in the truthy set, with the spec's table on
concrete stores; absent keys read as false; the accessor is total, so no
error is ever raised for unparseable input. -/
theorem c5_getbool_coercion (s : Options) (key : String) :
    (s.GetBool key = true ↔
      lowerAscii (s.GetString key) ∈ ["1", "y", "t", "yes", "true", "ok", "on"]) ∧
    (NewOptions.SetNx "k" (Value.vstr "Yes")).GetBool "k" = true ∧
    (NewOptions.SetNx "k" (Value.vstr "TRUE")).GetBool "k" = true ∧
    (NewOptions.SetNx "k" (Value.vstr "1")).GetBool "k" = true ∧
    (NewOptions.SetNx "k" (Value.vstr "y")).GetBool "k" = true ∧
    (NewOptions.SetNx "k" (Value.vstr "t")).GetBool "k" = true ∧
    (NewOptions.SetNx "k" (Value.vstr "oK")).GetBool "k" = true ∧
    (NewOptions.SetNx "k" (Value.vstr "On")).GetBool "k" = true ∧
    (NewOptions.SetNx "k" (Value.vstr "0")).GetBool "k" = false ∧
    (NewOptions.SetNx "k" (Value.vstr "no")).GetBool "k" = false ∧
    (NewOptions.SetNx "k" (Value.vstr "false")).GetBool "k" = false ∧
    (NewOptions.SetNx "k" (Value.vstr "")).GetBool "k" = false ∧
    NewOptions.GetBool "missing" = false := by
  refine ⟨?_, rfl, rfl, rfl, rfl, rfl, rfl, rfl, rfl, rfl, rfl, rfl, rfl⟩
  unfold Options.GetBool
  split
  all_goals simp_all

/-- C10: when the hierarchy lookup for a section path yields nil (a missing
branch), `GetSectionFrom` returns the nil error and the caller's holder is
returned unmodified, indistinguishable from a successful empty load. -/
theorem c10_section_absent {Holder B E : Type} (rxxtPfx : List String) (s : Options)
    (sectionKeyPath : String) (holder : Holder) (marshal : Smap → Except E B)
    (unmarshal : B → Holder → Except E Holder)
    (h : s.GetMap (wrapWithRxxtPfx rxxtPfx sectionKeyPath) = none) :
    GetSectionFrom rxxtPfx s sectionKeyPath holder marshal unmarshal = (none, holder) := by
  unfold GetSectionFrom
  rw [h]

/-- C10, witness: an empty store has no branch at `app.server`, so the load
into the holder `7` yields no error and leaves the holder at `7`. -/
theorem c10_section_absent_witness :
    @GetSectionFrom Nat Unit Unit ["app"] NewOptions "server" 7
      (fun _ => Except.ok ()) (fun _ h => Except.ok h) = (none, 7) :=
  c10_section_absent ["app"] NewOptions "server" 7 (fun _ => Except.ok ())
    (fun _ h => Except.ok h) rfl

/-
Lemmas characterizing `mergeMap` / `mergeInto` for the merge-semantics claim.
-/

/-- The merge is always a single top-level write of the `mergeVal` of the
existing node and the incoming value. -/
theorem mergeMap_eq_insert (m : Smap) (key : String) (val : Value) :
    mergeMap m key val = m.insertKV key (mergeVal (m.alookup key) val) := by
  cases hl : m.alookup key with
  | none => rw [mergeMap, hl]; rfl
  | some z => rw [mergeMap, hl]; cases z <;> cases val <;> rfl

/-- Every merge is a single top-level write at the merged key. -/
theorem mergeMap_shape (m : Smap) (key : String) (val : Value) :
    ∃ X, mergeMap m key val = m.insertKV key X :=
  ⟨mergeVal (m.alookup key) val, mergeMap_eq_insert m key val⟩

/-- A merge at one key does not disturb lookups at other keys. -/
theorem mergeMap_alookup_ne (m : Smap) (key : String) (val : Value) (k : String)
    (h : k ≠ key) : (mergeMap m key val).alookup k = m.alookup k := by
  rw [mergeMap_eq_insert, Smap.alookup_insertKV, if_neg h]

/-- At the merged key, the merge result is the recursive union for two maps
and the incoming value otherwise. -/
theorem mergeMap_alookup_self (m : Smap) (key : String) (val : Value) :
    (mergeMap m key val).alookup key = some (mergeVal (m.alookup key) val) := by
  rw [mergeMap_eq_insert, Smap.alookup_insertKV, if_pos rfl]

/-- Keys missing from an `Smap` are missing from its key list. -/
theorem Smap.alookup_eq_none_of_not_mem : ∀ (m : Smap) (k : String), k ∉ m.keys →
    m.alookup k = none
  | .nil, k, _ => rfl
  | .cons k0 v0 rest, k, h => by
    have h1 : k ≠ k0 := fun he => h (he ▸ List.mem_cons_self k0 rest.keys)
    have h2 : k ∉ rest.keys := fun hm => h (List.mem_cons_of_mem k0 hm)
    simp only [Smap.alookup, if_neg h1]
    exact Smap.alookup_eq_none_of_not_mem rest k h2

/-- The merge loop leaves children absent from the incoming map unchanged. -/
theorem mergeInto_alookup_none : ∀ (zm vm : Smap) (k : String), vm.alookup k = none →
    (mergeInto zm vm).alookup k = zm.alookup k
  | zm, .nil, k, _ => by rw [mergeInto]
  | zm, .cons k0 v0 rest, k, h => by
    have hk : k ≠ k0 ∧ rest.alookup k = none := by
      by_cases hk0 : k = k0
      · rw [Smap.alookup, if_pos hk0] at h
        cases h
      · rw [Smap.alookup, if_neg hk0] at h
        exact ⟨hk0, h⟩
    rw [mergeInto, mergeInto_alookup_none (mergeMap zm k0 v0) rest k hk.2,
      mergeMap_alookup_ne zm k0 v0 k hk.1]

/-- The merge loop writes every incoming child, merging map children
recursively and otherwise letting the incoming child win. -/
theorem mergeInto_alookup_some : ∀ (zm vm : Smap) (k : String) (v : Value),
    vm.keys.Nodup → vm.alookup k = some v →
    (mergeInto zm vm).alookup k = some (mergeVal (zm.alookup k) v)
  | zm, .nil, k, v, _, h => by cases h
  | zm, .cons k0 v0 rest, k, v, hnd, h => by
    rw [show (Smap.cons k0 v0 rest).keys = k0 :: rest.keys from rfl] at hnd
    by_cases hk0 : k = k0
    · rw [Smap.alookup, if_pos hk0] at h
      injection h with h
      subst h
      subst hk0
      have hrest : rest.alookup k = none :=
        Smap.alookup_eq_none_of_not_mem rest k (List.nodup_cons.mp hnd).1
      rw [mergeInto, mergeInto_alookup_none (mergeMap zm k v0) rest k hrest,
        mergeMap_alookup_self zm k v0]
    · rw [Smap.alookup, if_neg hk0] at h
      rw [mergeInto, mergeInto_alookup_some (mergeMap zm k0 v0) rest k v
        (List.nodup_cons.mp hnd).2 h, mergeMap_alookup_ne zm k0 v0 k hk0]

/-- C4: hierarchy merge semantics — (ii) on a type mismatch (either side not
a string-keyed map) the incoming value replaces the node outright; (i) when
both sides are maps the children are merged key-by-key as a recursive union
in which incoming children win (`mergeVal` merges map children recursively
and otherwise returns the incoming child); and the concrete sibling test:
after `SetNx "a.b" 1; SetNx "a.c" 2` the map at `a` holds both `b ↦ 1` and
`c ↦ 2`. -/
theorem c4_merge_semantics :
    (∀ (m : Smap) (key : String) (val z : Value),
      m.alookup key = some z → z.isMapV = false ∨ val.isMapV = false →
      mergeMap m key val = m.insertKV key val) ∧
    (∀ (m : Smap) (key : String) (zm vm : Smap),
      m.alookup key = some (Value.vmap zm) →
      mergeMap m key (Value.vmap vm) = m.insertKV key (Value.vmap (mergeInto zm vm))) ∧
    (∀ (zm vm : Smap) (k : String), vm.alookup k = none →
      (mergeInto zm vm).alookup k = zm.alookup k) ∧
    (∀ (zm vm : Smap) (k : String) (v : Value), vm.keys.Nodup → vm.alookup k = some v →
      (mergeInto zm vm).alookup k = some (mergeVal (zm.alookup k) v)) ∧
    (∃ M, ((NewOptions.SetNx "a.b" (Value.vint 1)).SetNx "a.c" (Value.vint 2)).getMapNoLock "a"
        = some M ∧ M.alookup "b" = some (Value.vint 1) ∧ M.alookup "c" = some (Value.vint 2)) := by
  refine ⟨?_, ?_, mergeInto_alookup_none, mergeInto_alookup_some, ?_⟩
  · intro m key val z hl hmis
    rw [mergeMap, hl]
    cases z <;> cases val <;> simp_all [Value.isMapV]
  · intro m key zm vm hl
    rw [mergeMap, hl]
  · refine ⟨Smap.cons "b" (Value.vint 1) (.cons "c" (Value.vint 2) .nil), ?_, rfl, rfl⟩
    simp [Options.SetNx, Options.getMapNoLock, getMap, splitDots, splitOnChar, splitChars,
      Smap.alookup, Smap.insertKV, mergeMap, mergeInto, et_drop, etAux, Value.isNil,
      NewOptions]

/-- C4, witness: the mismatch branch applied at a concrete store — merging a
string over an existing integer leaf replaces it — and the recursive-union
branch applied to concrete sibling maps. -/
theorem c4_merge_semantics_witness :
    mergeMap (Smap.cons "x" (Value.vint 1) .nil) "x" (Value.vstr "s")
        = Smap.cons "x" (Value.vstr "s") .nil ∧
    (mergeInto (Smap.cons "b" (Value.vint 1) .nil) (Smap.cons "c" (Value.vint 2) .nil)).alookup
        "b" = some (Value.vint 1) := by
  constructor
  · have h := c4_merge_semantics.1 (Smap.cons "x" (Value.vint 1) .nil) "x"
      (Value.vstr "s") (Value.vint 1) (by rfl) (.inl rfl)
    rw [h]
    rfl
  · have h := c4_merge_semantics.2.2.1 (Smap.cons "b" (Value.vint 1) .nil)
      (Smap.cons "c" (Value.vint 2) .nil) "b" (by rfl)
    rw [h]
    rfl

/-- C6, counterexample: a stored `[]byte` slice is not converted
element-wise; it is read back as a string and split on commas.  For the
bytes of `"9,7"` (57, 44, 55) element-wise stringification would give
`["57", "44", "55"]`, but the accessors return `["9", "7"]` / `[9, 7]`. -/
theorem c6_slices_cex :
    (NewOptions.SetNx "x" (Value.vbytes ['9', ',', '7'])).GetStringSlice "x" = ["9", "7"] ∧
    (NewOptions.SetNx "x" (Value.vbytes ['9', ',', '7'])).GetIntSlice "x" = [9, 7] ∧
    ['9', ',', '7'].map (fun c => toString c.toNat) = ["57", "44", "55"] ∧
    (["9", "7"] : List String) ≠ ["57", "44", "55"] := by
  refine ⟨rfl, rfl, rfl, by simp⟩

/-- C6, amended: slice coercion per stored shape — a single string splits on
commas; `[]string` and `[]int` slices are used verbatim (stringified or
parsed element-wise as needed); generic mixed slices are converted element
by element; any other scalar is rendered and split on commas; except that a
`[]byte` slice is read back as its string form and split on commas rather
than converted element-wise.  The spec's own table also holds on concrete
stores. -/
theorem c6_slices_amended (s : Options) (key : String) :
    (∀ str, s.entries.alookup key = some (Value.vstr str) →
      s.GetStringSlice key = splitOnChar ',' str ∧
      s.GetIntSlice key = stringSliceToIntSlice (splitOnChar ',' str)) ∧
    (∀ r, s.entries.alookup key = some (Value.vlistS r) →
      s.GetStringSlice key = r ∧ s.GetIntSlice key = stringSliceToIntSlice r) ∧
    (∀ ri, s.entries.alookup key = some (Value.vlistI ri) →
      s.GetStringSlice key = ri.map (fun i => toString i) ∧ s.GetIntSlice key = ri) ∧
    (∀ xs, s.entries.alookup key = some (Value.vlistV xs) →
      s.GetStringSlice key = goFmtList xs ∧
      s.GetIntSlice key = stringSliceToIntSlice (goFmtList xs)) ∧
    (∀ bs, s.entries.alookup key = some (Value.vbytes bs) →
      s.GetStringSlice key = splitOnChar ',' (String.mk bs) ∧
      s.GetIntSlice key = stringSliceToIntSlice (splitOnChar ',' (String.mk bs))) ∧
    (∀ v, s.entries.alookup key = some v →
      (v = Value.vnil ∨ (∃ b, v = Value.vbool b) ∨ (∃ n, v = Value.vint n)) →
      s.GetStringSlice key = splitOnChar ',' (goFmt v) ∧
      s.GetIntSlice key = stringSliceToIntSlice (splitOnChar ',' (goFmt v))) ∧
    (NewOptions.SetNx "x" (Value.vstr "a,b,c")).GetStringSlice "x" = ["a", "b", "c"] ∧
    (NewOptions.SetNx "x" (Value.vlistI [1, 2, 3])).GetIntSlice "x" = [1, 2, 3] := by
  refine ⟨?_, ?_, ?_, ?_, ?_, ?_, rfl, rfl⟩
  · intro str h
    exact ⟨by simp [Options.GetStringSlice, h], by simp [Options.GetIntSlice, h]⟩
  · intro r h
    exact ⟨by simp [Options.GetStringSlice, h], by simp [Options.GetIntSlice, h]⟩
  · intro ri h
    exact ⟨by simp [Options.GetStringSlice, h], by simp [Options.GetIntSlice, h]⟩
  · intro xs h
    exact ⟨by simp [Options.GetStringSlice, h], by simp [Options.GetIntSlice, h]⟩
  · intro bs h
    exact ⟨by simp [Options.GetStringSlice, h], by simp [Options.GetIntSlice, h]⟩
  · rintro v h (rfl | ⟨b, rfl⟩ | ⟨n, rfl⟩) <;>
      exact ⟨by simp [Options.GetStringSlice, h], by simp [Options.GetIntSlice, h]⟩

/-- C6, witness: the string-split and verbatim-list branches of the amended
characterization applied at concrete stores. -/
theorem c6_slices_amended_witness :
    (NewOptions.SetNx "x" (Value.vstr "1,2")).GetStringSlice "x" = ["1", "2"] ∧
    (NewOptions.SetNx "x" (Value.vlistS ["p", "q"])).GetStringSlice "x" = ["p", "q"] := by
  constructor
  · have h := ((c6_slices_amended (NewOptions.SetNx "x" (Value.vstr "1,2")) "x").1
      "1,2" rfl).1
    rw [h]
    rfl
  · have h := ((c6_slices_amended (NewOptions.SetNx "x" (Value.vlistS ["p", "q"])) "x").2.1
      ["p", "q"] rfl).1
    exact h

/-- C3, counterexample: a flat key that does not start with the configured
prefix is not overridden in place — the overlay write goes through `Set`,
which wraps the key, so the value lands at the prefix-wrapped key instead.
With prefix `app`, key `debug` and environment `APP_DEBUG=1`, the value at
`debug` is unchanged and `app.debug` is created. -/
theorem c3_env_overlay_cex :
    (Options.buildAutomaticEnv [("APP_DEBUG", "1")] ["APP"] ["app"]
        (Options.mk (.cons "debug" (Value.vint 0) .nil)
          (.cons "debug" (Value.vint 0) .nil))).map
      (fun s' => (s'.entries.alookup "debug", s'.entries.alookup "app.debug"))
    = some (some (Value.vint 0), some (Value.vstr "1")) ∧
    some (Value.vint 0) ≠ some (Value.vstr "1") := by
  exact ⟨rfl, by simp⟩

/-- Splitting the data of a dotted concatenation. -/
theorem data_append_dot (p rest : String) :
    (p ++ "." ++ rest).data = p.data ++ '.' :: rest.data := by
  simp [String.data_append]

/-- A prefixed key passes the `HasPrefix` test. -/
theorem hasPfx_wf (p rest : String) : hasPfx p (p ++ "." ++ rest) = true := by
  unfold hasPfx
  rw [data_append_dot, List.isPrefixOf_iff_prefix]
  exact ⟨_, rfl⟩

/-- Stripping the dotted prefix plus one byte recovers the key remainder. -/
theorem goSliceFrom_wf (p rest : String) :
    goSliceFrom (p ++ "." ++ rest) (p.data.length + 1) = some rest := by
  unfold goSliceFrom
  rw [data_append_dot, if_pos (by simp)]
  have hdrop : (p.data ++ '.' :: rest.data).drop (p.data.length + 1) = rest.data := by
    rw [List.append_cons, show p.data.length + 1 = (p.data ++ ['.']).length by simp]
    exact List.drop_left _ _
  rw [hdrop]

/-- Wrapping the stripped remainder restores the original prefixed key. -/
theorem wrap_wf (rxxtPfx : List String) (rest : String) (hp : rxxtPfx ≠ []) (hr : rest ≠ "") :
    wrapWithRxxtPfx rxxtPfx rest = joinWith "." rxxtPfx ++ "." ++ rest := by
  have h1 : ¬ (rxxtPfx.length = 0) := fun h => hp (List.length_eq_zero.mp h)
  have h2 : ¬ (rest.length = 0) := fun h =>
    hr (String.ext (show rest.data = "".data by rw [List.length_eq_zero.mp h]))
  unfold wrapWithRxxtPfx
  rw [if_neg h1, if_neg h2]

/-- The environment overlay loop, on any snapshot of well-formed prefixed
keys, succeeds and lands every triggered override at its own key, leaving
keys outside the snapshot untouched. -/
theorem overlay_fold (env : List (String × String)) (envPfx rxxtPfx : List String)
    (hp : rxxtPfx ≠ []) :
    ∀ (keyList : List String) (st : Options),
    (∀ k ∈ keyList, ∃ rest, rest ≠ "" ∧ k = joinWith "." rxxtPfx ++ "." ++ rest) →
    ∃ st', keyList.foldlM (fun st key =>
        match alookup env (envKey envPfx key) with
        | some v =>
          if hasPfx (joinWith "." rxxtPfx) key then
            match goSliceFrom key ((joinWith "." rxxtPfx).data.length + 1) with
            | some stripped => some (st.Set rxxtPfx stripped (Value.vstr v))
            | none => none
          else some (st.Set rxxtPfx key (Value.vstr v))
        | none => some st) st = some st' ∧
      (keyList.Nodup → ∀ key v, key ∈ keyList →
        alookup env (envKey envPfx key) = some v →
        st'.entries.alookup key = some (Value.vstr v)) ∧
      (∀ key, key ∉ keyList → st'.entries.alookup key = st.entries.alookup key) := by
  intro keyList
  induction keyList with
  | nil =>
    intro st _
    refine ⟨st, rfl, ?_, ?_⟩
    · intro _ key v hkey _
      cases hkey
    · intro key _
      rfl
  | cons k0 rest ih =>
    intro st hwf
    obtain ⟨r0, hr0, hk0⟩ := hwf k0 (List.mem_cons_self _ _)
    have hwfrest : ∀ k ∈ rest, ∃ q, q ≠ "" ∧ k = joinWith "." rxxtPfx ++ "." ++ q :=
      fun k hk => hwf k (List.mem_cons_of_mem _ hk)
    cases henv : alookup env (envKey envPfx k0) with
    | none =>
      obtain ⟨st', hfold, hhit, hframe⟩ := ih st hwfrest
      refine ⟨st', ?_, ?_, ?_⟩
      · rw [List.foldlM_cons, henv]
        exact hfold
      · intro hnd key v hkey henv2
        rcases List.mem_cons.mp hkey with rfl | hkey2
        · rw [henv2] at henv
          cases henv
        · exact hhit (List.nodup_cons.mp hnd).2 key v hkey2 henv2
      · intro key hkey
        exact hframe key (fun hm => hkey (List.mem_cons_of_mem _ hm))
    | some v0 =>
      have hset : st.Set rxxtPfx r0 (Value.vstr v0) = st.SetNx k0 (Value.vstr v0) := by
        unfold Options.Set
        rw [wrap_wf rxxtPfx r0 hp hr0, ← hk0]
      have hpfx : hasPfx (joinWith "." rxxtPfx) k0 = true := by
        rw [hk0]
        exact hasPfx_wf _ _
      have hslice : goSliceFrom k0 ((joinWith "." rxxtPfx).data.length + 1) = some r0 := by
        rw [hk0]
        exact goSliceFrom_wf _ _
      have hstep : (match alookup env (envKey envPfx k0) with
          | some v =>
            if hasPfx (joinWith "." rxxtPfx) k0 then
              match goSliceFrom k0 ((joinWith "." rxxtPfx).data.length + 1) with
              | some stripped => some (st.Set rxxtPfx stripped (Value.vstr v))
              | none => none
            else some (st.Set rxxtPfx k0 (Value.vstr v))
          | none => some st) = some (st.SetNx k0 (Value.vstr v0)) := by
        simp only [henv, hpfx, if_true, hslice, hset]
      obtain ⟨st', hfold, hhit, hframe⟩ := ih (st.SetNx k0 (Value.vstr v0)) hwfrest
      have hent : (st.SetNx k0 (Value.vstr v0)).entries
          = st.entries.insertKV k0 (Value.vstr v0) :=
        SetNx_entries st k0 (Value.vstr v0) (.inl rfl)
      refine ⟨st', ?_, ?_, ?_⟩
      · rw [List.foldlM_cons, hstep]
        exact hfold
      · intro hnd key v hkey henv2
        rcases List.mem_cons.mp hkey with rfl | hkey2
        · rw [henv2] at henv
          injection henv with henv
          subst henv
          rw [hframe key (List.nodup_cons.mp hnd).1, hent, Smap.alookup_insertKV,
            if_pos rfl]
        · exact hhit (List.nodup_cons.mp hnd).2 key v hkey2 henv2
      · intro key hkey
        rw [hframe key (fun hm => hkey (List.mem_cons_of_mem _ hm)), hent,
          Smap.alookup_insertKV,
          if_neg (fun he => hkey (by rw [he]; exact List.mem_cons_self _ _))]

/-- C3 (amended): the derived environment-variable name replaces `.` and `-`
by `_`, upper-cases, and joins to the configured environment prefix with `_`;
and whenever that variable is set, the overlay pass lands the override at the
same key, provided the configured prefix is nonempty and every flat key is
the dotted prefix followed by `.` and a nonempty remainder.  Keys that do not
begin with the prefix are instead overridden at the prefix-wrapped key, and a
key equal to the bare prefix makes the pass panic (see the counterexample and
the `goSliceFrom` model). -/
theorem c3_env_overlay_amended (env : List (String × String)) (envPfx rxxtPfx : List String)
    (s : Options) (key : String) (v : String)
    (hp : rxxtPfx ≠ [])
    (hnd : s.entries.keys.Nodup)
    (hwf : ∀ k ∈ s.entries.keys, ∃ rest, rest ≠ "" ∧
      k = joinWith "." rxxtPfx ++ "." ++ rest)
    (hkey : key ∈ s.entries.keys)
    (henv : alookup env (envKey envPfx key) = some v) :
    (envKey envPfx key
        = joinWith "_" (envPfx ++ [upperAscii (replaceChar '-' '_' (replaceChar '.' '_' key))])) ∧
    ∃ s', s.buildAutomaticEnv env envPfx rxxtPfx = some s' ∧
      s'.entries.alookup key = some (Value.vstr v) := by
  refine ⟨rfl, ?_⟩
  obtain ⟨st', hfold, hhit, _⟩ := overlay_fold env envPfx rxxtPfx hp s.entries.keys s hwf
  exact ⟨st', hfold, hhit hnd key v hkey henv⟩

/-- C3, witness: with prefix `app`, environment prefix `APP`, stored key
`app.debug` and environment `APP_DEBUG=true`, the overlay lands `true` at
`app.debug`. -/
theorem c3_env_overlay_amended_witness :
    ∃ s', Options.buildAutomaticEnv [("APP_APP_DEBUG", "true")] ["APP"] ["app"]
        (Options.mk (.cons "app.debug" (Value.vbool false) .nil)
          (.cons "app" (Value.vmap (.cons "debug" (Value.vbool false) .nil)) .nil))
        = some s' ∧
      s'.entries.alookup "app.debug" = some (Value.vstr "true") :=
  (c3_env_overlay_amended [("APP_APP_DEBUG", "true")] ["APP"] ["app"]
    (Options.mk (.cons "app.debug" (Value.vbool false) .nil)
      (.cons "app" (Value.vmap (.cons "debug" (Value.vbool false) .nil)) .nil))
    "app.debug" "true" (by simp) (by simp [Smap.keys])
    (by
      intro k hk
      simp [Smap.keys] at hk
      subst hk
      exact ⟨"debug", by simp, rfl⟩)
    (by simp [Smap.keys]) rfl).2

/-
String-splitting lemmas for the ingestion round-trip claim.
-/

/-- Splitting distributes over a separator occurrence. -/
theorem splitChars_append_sep (sep : Char) (xs ys : List Char) :
    splitChars sep (xs ++ sep :: ys) = splitChars sep xs ++ splitChars sep ys := by
  induction xs with
  | nil => simp [splitChars]
  | cons x xs ih =>
    by_cases hx : x = sep
    · subst hx
      simp [splitChars, ih]
    · cases hS : splitChars sep xs with
      | nil => exact absurd hS (splitChars_ne_nil sep xs)
      | cons c0 crest =>
        simp [splitChars, hx, ih, hS]

/-- Splitting a separator-free list is the identity. -/
theorem splitChars_of_free (sep : Char) (cs : List Char) (h : ∀ c ∈ cs, c ≠ sep) :
    splitChars sep cs = [cs] := by
  induction cs with
  | nil => rfl
  | cons c rest ih =>
    have hc : c ≠ sep := h c (List.mem_cons_self _ _)
    have ihr := ih (fun c hm => h c (List.mem_cons_of_mem _ hm))
    simp [splitChars, hc, ihr]

/-- A dot-free key splits to itself. -/
theorem dotFree_splitDots (k : String) (h : dotFree k = true) : splitDots k = [k] := by
  have hall : ∀ c ∈ k.data, c ≠ '.' := by
    intro c hc
    have := List.all_eq_true.mp h c hc
    simpa using this
  unfold splitDots splitOnChar
  rw [splitChars_of_free '.' k.data hall]
  rfl

/-- Joining a nonempty key onto a prefix is nonempty. -/
theorem mx_ne_empty (pre k : String) (hk : k ≠ "") : mx pre k ≠ "" := by
  unfold mx
  split
  · exact hk
  · intro h
    have hd := congrArg String.data h
    rw [data_append_dot] at hd
    simp at hd

/-- Splitting a joined key extends the prefix path by one segment. -/
theorem splitDots_mx (pre k : String) (_hk : k ≠ "") (hdf : dotFree k = true) :
    splitDots (mx pre k) = prePath pre ++ [k] := by
  unfold mx prePath
  by_cases hpre : pre = ""
  · rw [if_pos (by rw [hpre]; rfl), if_pos hpre, dotFree_splitDots k hdf]
    rfl
  · have hlen : ¬ (pre.length = 0) := fun h =>
      hpre (String.ext (show pre.data = "".data by rw [List.length_eq_zero.mp h]))
    rw [if_neg hlen, if_neg hpre]
    show splitOnChar '.' (pre ++ "." ++ k) = _
    unfold splitOnChar
    rw [data_append_dot, splitChars_append_sep, List.map_append]
    have hall : ∀ c ∈ k.data, c ≠ '.' := by
      intro c hc
      have := List.all_eq_true.mp hdf c hc
      simpa using this
    rw [splitChars_of_free '.' k.data hall]
    rfl

/-- Path view of a joined prefix. -/
theorem prePath_mx (pre k : String) (hk : k ≠ "") (hdf : dotFree k = true) :
    prePath (mx pre k) = prePath pre ++ [k] := by
  rw [show prePath (mx pre k) = splitDots (mx pre k) from
    by unfold prePath; rw [if_neg (mx_ne_empty pre k hk)]]
  exact splitDots_mx pre k hk hdf

/-- A successful association-list lookup is a membership. -/
theorem alookup_mem {α : Type} : ∀ (l : List (String × α)) (k : String) (v : α),
    alookup l k = some v → (k, v) ∈ l
  | [], _, _, h => by cases h
  | (k0, v0) :: rest, k, v, h => by
    by_cases hk : k = k0
    · subst hk
      rw [alookup, if_pos rfl] at h
      injection h with h
      subst h
      exact List.mem_cons_self _ _
    · rw [alookup, if_neg hk] at h
      exact List.mem_cons_of_mem _ (alookup_mem rest k v h)

/-- A successful `Smap` lookup means the key is in the key list. -/
theorem Smap.alookup_mem_keys : ∀ (m : Smap) (k : String) (v : Value),
    m.alookup k = some v → k ∈ m.keys
  | .nil, _, _, h => by cases h
  | .cons k0 v0 rest, k, v, h => by
    by_cases hk : k = k0
    · subst hk
      exact List.mem_cons_self _ _
    · rw [Smap.alookup, if_neg hk] at h
      exact List.mem_cons_of_mem _ (Smap.alookup_mem_keys rest k v h)

/-- A key present in the key list has a successful lookup. -/
theorem Smap.alookup_isSome_of_mem_keys : ∀ (m : Smap) (k : String), k ∈ m.keys →
    (m.alookup k).isSome = true
  | .nil, k, h => by cases h
  | .cons k0 v0 rest, k, h => by
    by_cases hk : k = k0
    · subst hk
      simp [Smap.alookup]
    · rcases List.mem_cons.mp h with he | hm
      · exact absurd he hk
      · rw [Smap.alookup, if_neg hk]
        exact Smap.alookup_isSome_of_mem_keys rest k hm

/-- Tree descents starting at a different head key skip a map entry. -/
theorem treeGet_cons_ne (k0 : String) (v0 : Value) (rest : Smap) (h0 : String)
    (ss : List String) (h : h0 ≠ k0) :
    treeGet (Smap.cons k0 v0 rest) (h0 :: ss) = treeGet rest (h0 :: ss) := by
  cases ss <;> simp [treeGet, Smap.alookup, h]

/-- Structure of a well-formed document node. -/
theorem docWF_cons (k0 : String) (v0 : Value) (rest : Smap)
    (h : docWF (Smap.cons k0 v0 rest) = true) :
    k0 ≠ "" ∧ dotFree k0 = true ∧ rest.hasKey k0 = false ∧ docWFv v0 = true ∧
      docWF rest = true := by
  rw [docWF] at h
  simp only [Bool.and_eq_true, Bool.not_eq_true'] at h
  obtain ⟨⟨⟨⟨h1, h2⟩, h3⟩, h4⟩, h5⟩ := h
  refine ⟨?_, h2, h3, h4, h5⟩
  intro he
  rw [he] at h1
  simp at h1

/-- A value is not a string-keyed map exactly when it differs from every
`vmap`. -/
theorem isMapV_eq_false_iff (v : Value) : v.isMapV = false ↔ ∀ m, v ≠ Value.vmap m := by
  cases v <;> simp [Value.isMapV]

/-- Flattening a node whose first value is a leaf. -/
theorem flattenDoc_cons_leaf (pre k0 : String) (v0 : Value) (rest : Smap)
    (h : v0.isMapV = false) :
    flattenDoc pre (Smap.cons k0 v0 rest) = [(mx pre k0, v0)] ++ flattenDoc pre rest := by
  cases v0
  case vmap m => simp [Value.isMapV] at h
  all_goals simp [flattenDoc]

/-- Soundness of the flattening: every flattened pair is a leaf of the
document, its key is the fold of the segment path onto the prefix, and its
split is the prefix path extended by those segments. -/
theorem flattenDoc_sound : ∀ (m : Smap) (pre k : String) (v : Value),
    docWF m = true → (k, v) ∈ flattenDoc pre m →
    v.isMapV = false ∧ docWFv v = true ∧
    ∃ suffix, suffix ≠ [] ∧
      (∀ seg ∈ suffix, seg ≠ "" ∧ dotFree seg = true) ∧
      k = suffix.foldl mx pre ∧
      splitDots k = prePath pre ++ suffix ∧
      treeGet m suffix = some v ∧
      suffix.headD "" ∈ m.keys
  | .nil, pre, k, v, hwf, hmem => by
    rw [flattenDoc] at hmem
    cases hmem
  | .cons k0 v0 rest, pre, k, v, hwf, hmem => by
    obtain ⟨hk0ne, hk0df, hk0fresh, hv0, hrest⟩ := docWF_cons k0 v0 rest hwf
    have hlift : ∀ suffix, suffix ≠ [] → suffix.headD "" ∈ rest.keys →
        treeGet rest suffix = some v → treeGet (Smap.cons k0 v0 rest) suffix = some v := by
      intro suffix hsne hhead htg
      have hheadne : suffix.headD "" ≠ k0 := by
        intro he
        have := Smap.alookup_isSome_of_mem_keys rest k0 (he ▸ hhead)
        rw [show rest.hasKey k0 = (rest.alookup k0).isSome from rfl, this] at hk0fresh
        cases hk0fresh
      cases suffix with
      | nil => exact absurd rfl hsne
      | cons s ss =>
        rw [treeGet_cons_ne k0 v0 rest s ss (by simpa using hheadne)]
        exact htg
    by_cases hm0 : ∃ m0, v0 = Value.vmap m0
    · obtain ⟨m0, rfl⟩ := hm0
      rw [docWFv] at hv0
      simp only [flattenDoc] at hmem
      rcases List.mem_append.mp hmem with hL | hR
      · obtain ⟨hvm, hdv, suffix0, hs0ne, hsegs, hfold, hsplit, htg, hhead⟩ :=
          flattenDoc_sound m0 (mx pre k0) k v hv0 hL
        refine ⟨hvm, hdv, k0 :: suffix0, by simp, ?_, hfold, ?_, ?_,
          List.mem_cons_self _ _⟩
        · intro seg hseg
          rcases List.mem_cons.mp hseg with rfl | hm
          · exact ⟨hk0ne, hk0df⟩
          · exact hsegs seg hm
        · rw [hsplit, prePath_mx pre k0 hk0ne hk0df, List.append_assoc]
          rfl
        · cases suffix0 with
          | nil => exact absurd rfl hs0ne
          | cons s ss =>
            simp only [treeGet, Smap.alookup, if_pos rfl]
            exact htg
      · obtain ⟨hvm, hdv, suffix, hsne, hsegs, hfold, hsplit, htg, hhead⟩ :=
          flattenDoc_sound rest pre k v hrest hR
        exact ⟨hvm, hdv, suffix, hsne, hsegs, hfold, hsplit,
          hlift suffix hsne hhead htg, List.mem_cons_of_mem _ hhead⟩
    · have hnm : v0.isMapV = false :=
        (isMapV_eq_false_iff v0).mpr (fun m he => hm0 ⟨m, he⟩)
      rw [flattenDoc_cons_leaf pre k0 v0 rest hnm] at hmem
      rcases List.mem_append.mp hmem with hL | hR
      · simp only [List.mem_singleton, Prod.mk.injEq] at hL
        obtain ⟨rfl, rfl⟩ := hL
        refine ⟨hnm, hv0, [k0], by simp, ?_,
          by simp [List.foldl_cons, List.foldl_nil], ?_, ?_, List.mem_cons_self _ _⟩
        · intro seg hseg
          rcases List.mem_cons.mp hseg with rfl | hm
          · exact ⟨hk0ne, hk0df⟩
          · cases hm
        · exact splitDots_mx pre k0 hk0ne hk0df
        · simp [treeGet, Smap.alookup]
      · obtain ⟨hvm, hdv, suffix, hsne, hsegs, hfold, hsplit, htg, hhead⟩ :=
          flattenDoc_sound rest pre k v hrest hR
        exact ⟨hvm, hdv, suffix, hsne, hsegs, hfold, hsplit,
          hlift suffix hsne hhead htg, List.mem_cons_of_mem _ hhead⟩

/-- Completeness of the flattening: every non-map value reachable in a
well-formed document appears in its flattening, keyed by the fold of the
path onto the prefix. -/
theorem flattenDoc_complete : ∀ (m : Smap) (pre : String) (suffix : List String) (v : Value),
    docWF m = true → treeGet m suffix = some v → v.isMapV = false →
    (suffix.foldl mx pre, v) ∈ flattenDoc pre m
  | .nil, pre, suffix, v, hwf, htg, hv => by
    rw [treeGet_nil] at htg
    cases htg
  | .cons k0 v0 rest, pre, suffix, v, hwf, htg, hv => by
    obtain ⟨hk0ne, hk0df, hk0fresh, hv0, hrest⟩ := docWF_cons k0 v0 rest hwf
    cases suffix with
    | nil => simp [treeGet] at htg
    | cons s0 srest =>
      by_cases hs0 : s0 = k0
      · subst hs0
        cases srest with
        | nil =>
          simp only [treeGet, Smap.alookup, if_pos rfl] at htg
          injection htg with htg
          subst htg
          rw [flattenDoc_cons_leaf pre s0 v0 rest hv]
          simp [List.foldl_cons, List.foldl_nil]
        | cons s1 ss =>
          simp only [treeGet, Smap.alookup, if_pos rfl] at htg
          cases v0
          all_goals first
            | (rename_i m0
               rw [docWFv] at hv0
               have hmem := flattenDoc_complete m0 (mx pre s0) (s1 :: ss) v hv0 htg hv
               simp only [flattenDoc]
               rw [List.foldl_cons]
               exact List.mem_append.mpr (.inl hmem))
            | exact Option.noConfusion htg
      · rw [treeGet_cons_ne k0 v0 rest s0 srest hs0] at htg
        have hmem := flattenDoc_complete rest pre (s0 :: srest) v hrest htg hv
        by_cases hm0 : ∃ m0, v0 = Value.vmap m0
        · obtain ⟨m0, rfl⟩ := hm0
          simp only [flattenDoc]
          exact List.mem_append.mpr (.inr hmem)
        · rw [flattenDoc_cons_leaf pre k0 v0 rest
            ((isMapV_eq_false_iff v0).mpr (fun m he => hm0 ⟨m, he⟩))]
          exact List.mem_append.mpr (.inr hmem)

/-- The flattened writes of a well-formed document have pairwise
prefix-unrelated key paths (the leaf paths of a tree form an antichain). -/
theorem flattenDoc_antichain : ∀ (m : Smap) (pre : String), docWF m = true →
    (flattenDoc pre m).Pairwise (fun p q =>
      ¬ splitDots p.1 <+: splitDots q.1 ∧ ¬ splitDots q.1 <+: splitDots p.1)
  | .nil, pre, _ => by
    rw [flattenDoc]
    exact List.Pairwise.nil
  | .cons k0 v0 rest, pre, hwf => by
    obtain ⟨hk0ne, hk0df, hk0fresh, hv0, hrest⟩ := docWF_cons k0 v0 rest hwf
    have hkeyrest : ∀ (p : String × Value), p ∈ flattenDoc pre rest →
        ∃ sb, sb ≠ [] ∧ splitDots p.1 = prePath pre ++ sb ∧ sb.headD "" ≠ k0 := by
      intro p hp
      obtain ⟨_, _, sb, hsbne, _, _, hsplit, _, hhead⟩ :=
        flattenDoc_sound rest pre p.1 p.2 hrest hp
      refine ⟨sb, hsbne, hsplit, ?_⟩
      intro he
      have := Smap.alookup_isSome_of_mem_keys rest k0 (he ▸ hhead)
      rw [show rest.hasKey k0 = (rest.alookup k0).isSome from rfl, this] at hk0fresh
      cases hk0fresh
    have hcross : ∀ (a : String × Value), (∃ ta, splitDots a.1 = prePath pre ++ k0 :: ta) →
        ∀ (b : String × Value), b ∈ flattenDoc pre rest →
        ¬ splitDots a.1 <+: splitDots b.1 ∧ ¬ splitDots b.1 <+: splitDots a.1 := by
      rintro a ⟨ta, hsplita⟩ b hb
      obtain ⟨sb, hsbne, hsplitb, hsbhead⟩ := hkeyrest b hb
      cases sb with
      | nil => exact absurd rfl hsbne
      | cons b0 bs =>
        have hb0 : b0 ≠ k0 := by simpa using hsbhead
        constructor
        · intro hpre
          rw [hsplita, hsplitb] at hpre
          have h2 := (List.prefix_append_right_inj (prePath pre)).mp hpre
          exact hb0 (List.cons_prefix_cons.mp h2).1.symm
        · intro hpre
          rw [hsplita, hsplitb] at hpre
          have h2 := (List.prefix_append_right_inj (prePath pre)).mp hpre
          exact hb0 (List.cons_prefix_cons.mp h2).1
    by_cases hm0 : ∃ m0, v0 = Value.vmap m0
    · obtain ⟨m0, rfl⟩ := hm0
      rw [docWFv] at hv0
      simp only [flattenDoc]
      rw [List.pairwise_append]
      refine ⟨flattenDoc_antichain m0 (mx pre k0) hv0,
        flattenDoc_antichain rest pre hrest, ?_⟩
      intro a ha b hb
      obtain ⟨_, _, sa, hsane, _, _, hsplita, _, _⟩ :=
        flattenDoc_sound m0 (mx pre k0) a.1 a.2 hv0 ha
      refine hcross a ⟨sa, ?_⟩ b hb
      rw [hsplita, prePath_mx pre k0 hk0ne hk0df, List.append_assoc]
      rfl
    · have hnm : v0.isMapV = false :=
        (isMapV_eq_false_iff v0).mpr (fun m he => hm0 ⟨m, he⟩)
      rw [flattenDoc_cons_leaf pre k0 v0 rest hnm, List.pairwise_append]
      refine ⟨List.pairwise_singleton _ _, flattenDoc_antichain rest pre hrest, ?_⟩
      intro a ha b hb
      rw [List.mem_singleton] at ha
      subst ha
      refine hcross _ ⟨[], ?_⟩ b hb
      exact splitDots_mx pre k0 hk0ne hk0df

/-- Writes compose by appending. -/
theorem applyWrites_append : ∀ (l1 l2 : List (String × Value)) (s : Options),
    applyWrites s (l1 ++ l2) = applyWrites (applyWrites s l1) l2
  | [], l2, s => rfl
  | (k, v) :: rest, l2, s => by
    rw [List.cons_append]
    exact applyWrites_append rest l2 (s.SetNx k v)

/-- Ingesting the empty document is the identity. -/
theorem loopMap_nil (s : Options) (kdot : String) : s.loopMap kdot .nil = s := by
  simp [Options.loopMap]

/-- Ingesting a node whose first value is a string-keyed map recurses. -/
theorem loopMap_cons_map (s : Options) (kdot k0 : String) (m0 rest : Smap) :
    s.loopMap kdot (Smap.cons k0 (Value.vmap m0) rest)
      = (s.loopMap (mx kdot k0) m0).loopMap kdot rest := by
  simp [Options.loopMap]

/-- Ingesting a node whose first value is a leaf writes it. -/
theorem loopMap_cons_leaf (s : Options) (kdot k0 : String) (v0 : Value) (rest : Smap)
    (h1 : v0.isMapV = false) (h2 : ∀ m0, v0 ≠ Value.vmapIx m0) :
    s.loopMap kdot (Smap.cons k0 v0 rest) = (s.SetNx (mx kdot k0) v0).loopMap kdot rest := by
  cases v0
  all_goals first
    | (rw [Options.loopMap]
       all_goals exact fun vm h => Value.noConfusion h)
    | (rename_i m
       exact absurd rfl (h2 m))
    | (rename_i m
       simp only [Value.isMapV] at h1
       exact Bool.noConfusion h1)

/-- Ingestion of a well-formed document is exactly the sequence of `SetNx`
writes of its flattening. -/
theorem loopMap_eq_applyWrites : ∀ (m : Smap) (s : Options) (kdot : String),
    docWF m = true → s.loopMap kdot m = applyWrites s (flattenDoc kdot m)
  | .nil, s, kdot, _ => by
    rw [loopMap_nil, flattenDoc]
    rfl
  | .cons k0 v0 rest, s, kdot, hwf => by
    obtain ⟨hk0ne, hk0df, hk0fresh, hv0, hrest⟩ := docWF_cons k0 v0 rest hwf
    by_cases hm0 : ∃ m0, v0 = Value.vmap m0
    · obtain ⟨m0, rfl⟩ := hm0
      rw [docWFv] at hv0
      rw [loopMap_cons_map, loopMap_eq_applyWrites m0 s (mx kdot k0) hv0,
        loopMap_eq_applyWrites rest _ kdot hrest]
      simp only [flattenDoc]
      rw [applyWrites_append]
    · have hmx : ∀ m0, v0 ≠ Value.vmapIx m0 := by
        intro m0 he
        rw [he, docWFv] at hv0
        cases hv0
      have hnm : v0.isMapV = false :=
        (isMapV_eq_false_iff v0).mpr (fun m he => hm0 ⟨m, he⟩)
      rw [loopMap_cons_leaf s kdot k0 v0 rest hnm hmx,
        loopMap_eq_applyWrites rest _ kdot hrest, flattenDoc_cons_leaf kdot k0 v0 rest hnm]
      rfl

/-- Applying pairwise prefix-unrelated writes whose paths are all absent
from the tree accumulates the flat map like a plain association list. -/
theorem applyWrites_fresh : ∀ (ws : List (String × Value)) (s : Options),
    (∀ p ∈ ws, treeGet s.hierarchy (splitDots p.1) = none) →
    (∀ p ∈ ws, p.2.isMapV = false) →
    ws.Pairwise (fun p q =>
      ¬ splitDots p.1 <+: splitDots q.1 ∧ ¬ splitDots q.1 <+: splitDots p.1) →
    ∀ k, (applyWrites s ws).entries.alookup k =
      (match alookup ws k with
       | some v => some v
       | none => s.entries.alookup k)
  | [], s, _, _, _, k => rfl
  | (k0, v0) :: rest, s, hfresh, hvals, hpw, k => by
    have hfresh0 : treeGet s.hierarchy (splitDots k0) = none :=
      hfresh (k0, v0) (List.mem_cons_self _ _)
    have hwrite : v0.isNil = false ∨ (s.getMapNoLock k0).isSome = false := by
      right
      rw [getMapNoLock_isSome, hfresh0]
      rfl
    obtain ⟨a, arest, hsd⟩ : ∃ a arest, splitDots k0 = a :: arest := by
      rcases h : splitDots k0 with _ | ⟨a, arest⟩
      · exact absurd h (splitDots_ne_nil k0)
      · exact ⟨_, _, rfl⟩
    have hent := SetNx_entries s k0 v0 hwrite
    have hhier := SetNx_hierarchy s k0 v0 a arest hsd
      (hvals (k0, v0) (List.mem_cons_self _ _)) hwrite
    have hfresh' : ∀ p ∈ rest, treeGet (s.SetNx k0 v0).hierarchy (splitDots p.1) = none := by
      intro p hp
      have hrel := (List.pairwise_cons.mp hpw).1 p hp
      rw [hhier, ← hsd]
      rw [treeGet_setPath_frame s.hierarchy (splitDots k0) v0 (splitDots p.1)
        hrel.1 hrel.2]
      exact hfresh p (List.mem_cons_of_mem _ hp)
    have ih := applyWrites_fresh rest (s.SetNx k0 v0) hfresh'
      (fun p hp => hvals p (List.mem_cons_of_mem _ hp)) hpw.of_cons k
    rw [show applyWrites s ((k0, v0) :: rest) = applyWrites (s.SetNx k0 v0) rest from rfl,
      ih]
    by_cases hk : k = k0
    · subst hk
      have hnone : alookup rest k = none := by
        cases halk : alookup rest k with
        | none => rfl
        | some w =>
          have hmem := alookup_mem rest k w halk
          have hrel := (List.pairwise_cons.mp hpw).1 (k, w) hmem
          exact absurd (List.prefix_refl _) hrel.1
      rw [hnone]
      rw [show alookup ((k, v0) :: rest) k = some v0 from by rw [alookup, if_pos rfl]]
      rw [hent, Smap.alookup_insertKV, if_pos rfl]
    · rw [show alookup ((k0, v0) :: rest) k = alookup rest k from by
        rw [alookup, if_neg hk]]
      cases halk : alookup rest k with
      | some w => rfl
      | none =>
        rw [hent, Smap.alookup_insertKV, if_neg hk]

/-- Key membership after an update. -/
theorem Smap.hasKey_insertKV (m : Smap) (k : String) (v : Value) (k' : String) :
    (m.insertKV k v).hasKey k' = (k' == k || m.hasKey k') := by
  unfold Smap.hasKey
  rw [Smap.alookup_insertKV]
  by_cases h : k' = k <;> simp [h]

/-- Values of a well-formed document are themselves well-formed. -/
theorem docWFv_of_alookup : ∀ (m : Smap) (k : String) (w : Value),
    docWF m = true → m.alookup k = some w → docWFv w = true
  | .nil, _, _, _, h => by cases h
  | .cons k0 v0 rest, k, w, hwf, h => by
    obtain ⟨_, _, _, hv0, hrest⟩ := docWF_cons k0 v0 rest hwf
    by_cases hk : k = k0
    · rw [Smap.alookup, if_pos hk] at h
      injection h with h
      subst h
      exact hv0
    · rw [Smap.alookup, if_neg hk] at h
      exact docWFv_of_alookup rest k w hrest h

/-- Updating a well-formed document with a good key and value keeps it
well-formed. -/
theorem docWF_insertKV : ∀ (m : Smap) (k : String) (v : Value),
    docWF m = true → k ≠ "" → dotFree k = true → docWFv v = true →
    docWF (m.insertKV k v) = true
  | .nil, k, v, _, hne, hdf, hv => by
    rw [Smap.insertKV, docWF]
    simp [hne, hdf, hv, docWF, Smap.hasKey, Smap.alookup]
  | .cons k0 v0 rest, k, v, hwf, hne, hdf, hv => by
    obtain ⟨hk0ne, hk0df, hk0fresh, hv0, hrest⟩ := docWF_cons k0 v0 rest hwf
    rw [Smap.insertKV]
    by_cases hk : k = k0
    · rw [if_pos hk, docWF]
      simp [hk0ne, hk0df, hk0fresh, hv, hrest]
    · rw [if_neg hk, docWF]
      have hfresh2 : (rest.insertKV k v).hasKey k0 = false := by
        rw [Smap.hasKey_insertKV]
        simp [hk0fresh]
        exact fun h => hk h.symm
      simp [hk0ne, hk0df, hfresh2, hv0, docWF_insertKV rest k v hrest hne hdf hv]

/-- An `et` chain over good segments and a well-formed value is well-formed. -/
theorem docWFv_etAux : ∀ (segs : List String) (v : Value),
    (∀ seg ∈ segs, seg ≠ "" ∧ dotFree seg = true) → docWFv v = true →
    docWFv (etAux segs v) = true
  | [], v, _, hv => hv
  | s :: ss, v, hsegs, hv => by
    rw [etAux, docWFv, docWF]
    obtain ⟨hs1, hs2⟩ := hsegs s (List.mem_cons_self _ _)
    simp [hs1, hs2, docWF, Smap.hasKey, Smap.alookup,
      docWFv_etAux ss v (fun seg hm => hsegs seg (List.mem_cons_of_mem _ hm)) hv]

/-- A path update over good segments keeps the tree well-formed. -/
theorem docWF_setPath : ∀ (ks : List String) (H : Smap) (v : Value),
    docWF H = true → (∀ seg ∈ ks, seg ≠ "" ∧ dotFree seg = true) → docWFv v = true →
    docWF (setPath H ks v) = true
  | [], H, v, hwf, _, _ => hwf
  | [a], H, v, hwf, hsegs, hv => by
    obtain ⟨ha1, ha2⟩ := hsegs a (List.mem_cons_self _ _)
    rw [setPath]
    exact docWF_insertKV H a v hwf ha1 ha2 hv
  | a :: b :: rest, H, v, hwf, hsegs, hv => by
    obtain ⟨ha1, ha2⟩ := hsegs a (List.mem_cons_self _ _)
    have hsegs' : ∀ seg ∈ b :: rest, seg ≠ "" ∧ dotFree seg = true :=
      fun seg hm => hsegs seg (List.mem_cons_of_mem _ hm)
    cases hl : H.alookup a with
    | none =>
      rw [show setPath H (a :: b :: rest) v = H.insertKV a (etAux (b :: rest) v) from
        by simp [setPath, hl]]
      exact docWF_insertKV H a _ hwf ha1 ha2 (docWFv_etAux (b :: rest) v hsegs' hv)
    | some z =>
      cases z
      all_goals first
        | (rename_i zm
           rw [show setPath H (a :: b :: rest) v
               = H.insertKV a (Value.vmap (setPath zm (b :: rest) v)) from
             by simp [setPath, hl]]
           have hzm : docWF zm = true := by
             have := docWFv_of_alookup H a (Value.vmap zm) hwf hl
             rwa [docWFv] at this
           refine docWF_insertKV H a _ hwf ha1 ha2 ?_
           rw [docWFv]
           exact docWF_setPath (b :: rest) zm v hzm hsegs' hv)
        | (rw [show setPath H (a :: b :: rest) v = H.insertKV a (etAux (b :: rest) v) from
             by simp [setPath, hl]]
           exact docWF_insertKV H a _ hwf ha1 ha2 (docWFv_etAux (b :: rest) v hsegs' hv))

/-- Applying good writes keeps the hierarchy well-formed. -/
theorem docWF_applyWrites : ∀ (ws : List (String × Value)) (s : Options),
    docWF s.hierarchy = true →
    (∀ p ∈ ws, (∀ seg ∈ splitDots p.1, seg ≠ "" ∧ dotFree seg = true) ∧
      docWFv p.2 = true ∧ p.2.isMapV = false) →
    docWF (applyWrites s ws).hierarchy = true
  | [], s, hwf, _ => hwf
  | (k0, v0) :: rest, s, hwf, hgood => by
    obtain ⟨hsegs, hdv, hnm⟩ := hgood (k0, v0) (List.mem_cons_self _ _)
    have hgood' : ∀ p ∈ rest, (∀ seg ∈ splitDots p.1, seg ≠ "" ∧ dotFree seg = true) ∧
        docWFv p.2 = true ∧ p.2.isMapV = false :=
      fun p hp => hgood p (List.mem_cons_of_mem _ hp)
    rw [show applyWrites s ((k0, v0) :: rest) = applyWrites (s.SetNx k0 v0) rest from rfl]
    by_cases hg : (v0.isNil && (s.getMapNoLock k0).isSome) = true
    · rw [show s.SetNx k0 v0 = s by simp only [Options.SetNx, if_pos hg]]
      exact docWF_applyWrites rest s hwf hgood'
    · have hwrite : v0.isNil = false ∨ (s.getMapNoLock k0).isSome = false := by
        cases hA : v0.isNil <;> cases hB : (s.getMapNoLock k0).isSome <;> simp_all
      obtain ⟨a, arest, hsd⟩ : ∃ a arest, splitDots k0 = a :: arest := by
        rcases h : splitDots k0 with _ | ⟨a, arest⟩
        · exact absurd h (splitDots_ne_nil k0)
        · exact ⟨_, _, rfl⟩
      apply docWF_applyWrites rest (s.SetNx k0 v0) _ hgood'
      rw [SetNx_hierarchy s k0 v0 a arest hsd hnm hwrite]
      exact docWF_setPath (a :: arest) s.hierarchy v0 hwf (hsd ▸ hsegs) hdv

/-- The empty ingestion prefix denotes the empty path. -/
theorem prePath_empty : prePath "" = [] := by
  unfold prePath
  rw [if_pos rfl]

/-- In a list of writes with pairwise prefix-unrelated key paths, lookup
finds every member. -/
theorem alookup_of_mem_antichain : ∀ (l : List (String × Value)),
    l.Pairwise (fun p q =>
      ¬ splitDots p.1 <+: splitDots q.1 ∧ ¬ splitDots q.1 <+: splitDots p.1) →
    ∀ (k : String) (v : Value), (k, v) ∈ l → alookup l k = some v
  | [], _, k, v, h => by cases h
  | (k0, v0) :: rest, hpw, k, v, h => by
    rcases List.mem_cons.mp h with he | hm
    · rw [Prod.mk.injEq] at he
      obtain ⟨rfl, rfl⟩ := he
      rw [alookup, if_pos rfl]
    · by_cases hk : k = k0
      · subst hk
        have hrel := (List.pairwise_cons.mp hpw).1 (k, v) hm
        exact absurd (List.prefix_refl _) hrel.1
      · rw [alookup, if_neg hk]
        exact alookup_of_mem_antichain rest hpw.of_cons k v hm

/-- Facts about the flattened writes of a well-formed document, specialized
to the empty ingestion prefix. -/
theorem flattenDoc_top_facts (d : Smap) (hwf : docWF d = true) :
    ∀ p ∈ flattenDoc "" d, p.2.isMapV = false ∧ docWFv p.2 = true ∧
      (∀ seg ∈ splitDots p.1, seg ≠ "" ∧ dotFree seg = true) ∧
      p.1 = (splitDots p.1).foldl mx "" ∧
      treeGet d (splitDots p.1) = some p.2 := by
  intro p hp
  obtain ⟨h1, h2, suffix, hsne, hsegs, hfold, hsplit, htg, _⟩ :=
    flattenDoc_sound d "" p.1 p.2 hwf hp
  rw [prePath_empty, List.nil_append] at hsplit
  rw [hsplit]
  exact ⟨h1, h2, hsegs, hfold, htg⟩

/-- Ingesting a well-formed document and re-ingesting its exported hierarchy
into a fresh store reproduces the flat map pointwise. -/
theorem roundtrip_pointwise (d : Smap) (hwf : docWF d = true) :
    ∀ k, (NewOptions.loopMap ""
        ((NewOptions.loopMap "" d).GetHierarchyList)).entries.alookup k
      = (NewOptions.loopMap "" d).entries.alookup k := by
  have hfacts := flattenDoc_top_facts d hwf
  have hpw := flattenDoc_antichain d "" hwf
  have hbridge : NewOptions.loopMap "" d = applyWrites NewOptions (flattenDoc "" d) :=
    loopMap_eq_applyWrites d NewOptions "" hwf
  have hvals : ∀ p ∈ flattenDoc "" d, p.2.isMapV = false :=
    fun p hp => (hfacts p hp).1
  have hE : ∀ k, (applyWrites NewOptions (flattenDoc "" d)).entries.alookup k
      = alookup (flattenDoc "" d) k := by
    intro k
    rw [applyWrites_fresh (flattenDoc "" d) NewOptions
      (fun p _ => treeGet_nil (splitDots p.1)) hvals hpw k]
    cases alookup (flattenDoc "" d) k <;> rfl
  have hInv : StoreInv (applyWrites NewOptions (flattenDoc "" d)) := by
    refine StoreInv_applyWrites (flattenDoc "" d) NewOptions StoreInv_new hvals ?_
      (hpw.imp (fun hab => Or.inr hab))
    intro k w hk
    cases hk
  have hH : docWF (applyWrites NewOptions (flattenDoc "" d)).hierarchy = true := by
    refine docWF_applyWrites (flattenDoc "" d) NewOptions (by rw [docWF.eq_def]; rfl) ?_
    intro p hp
    obtain ⟨h1, h2, h3, _, _⟩ := hfacts p hp
    exact ⟨h3, h2, h1⟩
  obtain ⟨hI1, hI2, hI3⟩ := hInv
  have hfacts' := flattenDoc_top_facts _ hH
  have hpw' := flattenDoc_antichain _ "" hH
  have hvals' : ∀ p ∈ flattenDoc "" (applyWrites NewOptions (flattenDoc "" d)).hierarchy,
      p.2.isMapV = false := fun p hp => (hfacts' p hp).1
  have hbridge' : NewOptions.loopMap "" (applyWrites NewOptions (flattenDoc "" d)).hierarchy
      = applyWrites NewOptions
        (flattenDoc "" (applyWrites NewOptions (flattenDoc "" d)).hierarchy) :=
    loopMap_eq_applyWrites _ NewOptions "" hH
  have hE' : ∀ k, (applyWrites NewOptions
        (flattenDoc "" (applyWrites NewOptions (flattenDoc "" d)).hierarchy)).entries.alookup k
      = alookup (flattenDoc "" (applyWrites NewOptions (flattenDoc "" d)).hierarchy) k := by
    intro k
    rw [applyWrites_fresh _ NewOptions (fun p _ => treeGet_nil (splitDots p.1)) hvals' hpw' k]
    cases alookup (flattenDoc "" (applyWrites NewOptions (flattenDoc "" d)).hierarchy) k <;> rfl
  intro k
  rw [show (NewOptions.loopMap "" d).GetHierarchyList
      = (applyWrites NewOptions (flattenDoc "" d)).hierarchy from by rw [← hbridge]; rfl]
  rw [hbridge', hE', hbridge, hE]
  cases hlk : alookup (flattenDoc "" d) k with
  | some v =>
    have hmem := alookup_mem _ k v hlk
    obtain ⟨hvm, _, _, hfold, _⟩ := hfacts (k, v) hmem
    have hEk : (applyWrites NewOptions (flattenDoc "" d)).entries.alookup k = some v := by
      rw [hE, hlk]
    obtain ⟨hvm2, htgH⟩ := hI1 k v hEk
    have hmem' := flattenDoc_complete
      (applyWrites NewOptions (flattenDoc "" d)).hierarchy "" (splitDots k) v hH htgH hvm2
    rw [← hfold] at hmem'
    exact alookup_of_mem_antichain _ hpw' k v hmem'
  | none =>
    cases hlk' : alookup (flattenDoc "" (applyWrites NewOptions (flattenDoc "" d)).hierarchy) k
      with
    | none => rfl
    | some v =>
      have hmem' := alookup_mem _ k v hlk'
      obtain ⟨hvm', _, _, hfold', htgH⟩ := hfacts' (k, v) hmem'
      obtain ⟨k2, hk2, hk2split⟩ := hI2 (splitDots k) v htgH hvm'
      rw [hE] at hk2
      have hmem2 := alookup_mem _ k2 v hk2
      obtain ⟨_, _, _, hfold2, _⟩ := hfacts (k2, v) hmem2
      have hfold2a : k2 = List.foldl mx "" (splitDots k2) := hfold2
      have hfolda : k = List.foldl mx "" (splitDots k) := hfold'
      have hkk : k2 = k := by
        rw [hfold2a, hk2split]
        exact hfolda.symm
      rw [hkk] at hk2
      rw [hk2] at hlk
      cases hlk

/-- C7, counterexample: for a store populated only by ingestion the re-export /
re-ingest round trip can lose flat entries.  Ingesting `{a: 1, "a.b": 2}` puts
both `"a" ↦ 1` and `"a.b" ↦ 2` in the flat map, but the write of `"a.b"`
replaces the tree leaf at `a` by the branch `{b: 2}`; re-ingesting the exported
tree therefore rebuilds only `"a.b" ↦ 2` and the flat key `"a"` is gone. -/
theorem c7_roundtrip_cex :
    (NewOptions.loopMap "" dottedDoc).entries.alookup "a" = some (Value.vint 1) ∧
    (NewOptions.loopMap ""
        ((NewOptions.loopMap "" dottedDoc).GetHierarchyList)).entries.alookup "a" = none := by
  constructor <;>
    simp +decide [dottedDoc, Options.loopMap, Options.SetNx, Options.getMapNoLock, getMap,
      Options.GetHierarchyList, splitDots, splitOnChar, splitChars, Smap.alookup,
      Smap.insertKV, mergeMap, mergeInto, et_drop, etAux, Value.isNil, mx, NewOptions]

/-- C7, amended: ingesting `{owner: {name: "Tom", org: "GitHub"}}` into an
empty store yields `Get "owner.name" = "Tom"` and `GetMap "owner"` containing
both keys; and for every well-formed document (string-keyed maps whose keys
are nonempty, dot-free and duplicate-free), re-exporting the tree of the
ingested store via `GetHierarchyList` and re-ingesting it into a fresh store
reproduces the flat map pointwise. -/
theorem c7_roundtrip_amended (d : Smap) (hwf : docWF d = true) :
    ((NewOptions.loopMap "" ownerDoc).Get "owner.name" = Value.vstr "Tom" ∧
      (NewOptions.loopMap "" ownerDoc).GetMap "owner"
        = some (Smap.cons "name" (Value.vstr "Tom")
            (Smap.cons "org" (Value.vstr "GitHub") Smap.nil))) ∧
    ∀ k, (NewOptions.loopMap ""
        ((NewOptions.loopMap "" d).GetHierarchyList)).entries.alookup k
      = (NewOptions.loopMap "" d).entries.alookup k := by
  refine ⟨⟨?_, ?_⟩, roundtrip_pointwise d hwf⟩
  · simp +decide [ownerDoc, Options.loopMap, Options.SetNx, Options.Get, Options.getMapNoLock,
      getMap, splitDots, splitOnChar, splitChars, Smap.alookup, Smap.insertKV, mergeMap,
      mergeInto, et_drop, etAux, Value.isNil, mx, NewOptions]
  · rw [show NewOptions.loopMap "" ownerDoc
        = (NewOptions.SetNx "owner.name" (Value.vstr "Tom")).SetNx "owner.org"
            (Value.vstr "GitHub") from by
      rw [show ownerDoc = Smap.cons "owner" (Value.vmap (Smap.cons "name" (Value.vstr "Tom")
            (Smap.cons "org" (Value.vstr "GitHub") Smap.nil))) Smap.nil from rfl,
          loopMap_cons_map,
          loopMap_cons_leaf NewOptions (mx "" "owner") "name" (Value.vstr "Tom")
            (Smap.cons "org" (Value.vstr "GitHub") Smap.nil) rfl
            (fun m h => Value.noConfusion h),
          loopMap_cons_leaf (NewOptions.SetNx (mx (mx "" "owner") "name") (Value.vstr "Tom"))
            (mx "" "owner") "org" (Value.vstr "GitHub") Smap.nil rfl
            (fun m h => Value.noConfusion h),
          loopMap_nil, loopMap_nil]
      rfl]
    have hA : (NewOptions.SetNx "owner.name" (Value.vstr "Tom")).hierarchy
        = setPath NewOptions.hierarchy ["owner", "name"] (Value.vstr "Tom") :=
      SetNx_hierarchy _ _ _ "owner" ["name"] rfl rfl (Or.inl rfl)
    have hB : ((NewOptions.SetNx "owner.name" (Value.vstr "Tom")).SetNx "owner.org"
          (Value.vstr "GitHub")).hierarchy
        = setPath (NewOptions.SetNx "owner.name" (Value.vstr "Tom")).hierarchy
            ["owner", "org"] (Value.vstr "GitHub") :=
      SetNx_hierarchy _ _ _ "owner" ["org"] rfl rfl (Or.inl rfl)
    have hgm : ∀ (s : Options), s.GetMap "owner" = getMap s.hierarchy "owner" [] :=
      fun s => rfl
    rw [hgm, hB, hA]
    rfl

/-- Witness for the amended C7 at the owner document itself. -/
theorem c7_roundtrip_amended_witness :
    docWF ownerDoc = true ∧
    ∀ k, (NewOptions.loopMap ""
        ((NewOptions.loopMap "" ownerDoc).GetHierarchyList)).entries.alookup k
      = (NewOptions.loopMap "" ownerDoc).entries.alookup k := by
  have hwf : docWF ownerDoc = true := by
    simp +decide [ownerDoc, docWF, docWFv, dotFree, Smap.hasKey, splitChars]
  exact ⟨hwf, (c7_roundtrip_amended ownerDoc hwf).2⟩
